import Mathlib

/-!
# MBRFS: a verification development

A shallow embedding of `mbrfs.c`, the FUSE file system that shows the
partitions of a disk image (MBR and chained EBRs) as files of one directory.

Conventions of the embedding.

* A pointer to `struct mbr_partition` is a value of the inductive type
  `mbr_partition`; the constructor `NULL` is the null pointer.  Two nodes of one
  finite tree that differ as values are different memory cells.
* A C string is a `List Char` (no embedded NUL); the end of the list is the
  terminating NUL.
* `off_t` is `Int` (64 bit, signed), `size_t` is `Nat` below `2^64`, `int` is
  `Int` (32 bit, signed), `uint32_t` and `uint8_t` are `Nat`.  The narrowing
  conversions the source performs are written out (`to_off_t`, `to_size_t`,
  `to_int`) with the usual modular (two's complement) result.
* A call either returns, ends the process (`exit`), faults on an access to
  memory that is not mapped, or does not come back within the fuel it was
  given (`loops`).  The fuel of `mbr_find_partition` counts the rounds of its
  loop.  The fuel of `mbr_read_ebr` and `mbr_read_mbr` counts the depth of
  nested calls of `mbr_read_ebr`, the depth the stack has room for: a
  recursion without end is `loops` for every fuel, where the process goes on
  until the stack is exhausted.
* `mmap` is the one of Linux with pages of 4096 bytes on a regular file: it
  fails (`MAP_FAILED`) for a length of 0, for a file offset that is negative
  or no multiple of the page size, and for a length the address space cannot
  hold.  Through a mapping the bytes of the file are seen, then 0 up to the
  end of the last page of the file; an access further on faults.
* Sums and products of `off_t` values in the table reader are exact: they stay
  below `2^63` for every image of less than `2^63 - 2^41` bytes.
-/

namespace Mbrfs

/-! ## Outcomes of a call -/

/-- Result of running a C function: it returns a value, terminates the whole
process through `exit (code)`, faults (SIGSEGV/SIGBUS), or is still running
when the fuel is used up. -/
inductive Outcome (α : Type) where
  | returns (a : α) : Outcome α
  | exits (code : Nat) : Outcome α
  | crashes : Outcome α
  | loops : Outcome α
deriving DecidableEq, Repr

/-- Sequencing of calls: everything but a normal return is passed on. -/
def Outcome.bind {α β : Type} (x : Outcome α) (f : α → Outcome β) : Outcome β :=
  match x with
  | .returns a => f a
  | .exits c => .exits c
  | .crashes => .crashes
  | .loops => .loops

/-- Post-processing of a returned value. -/
def Outcome.map {α β : Type} (f : α → β) (x : Outcome α) : Outcome β :=
  x.bind (fun a => .returns (f a))

/-! ## Constants of the C environment (Linux, LP64) -/

def ENOENT : Int := 2
def EROFS : Int := 30
def O_RDONLY : Nat := 0
def O_WRONLY : Nat := 1
def O_RDWR : Nat := 2
def S_IFDIR : Nat := 0o040000
def S_IFREG : Nat := 0o100000
/-- The file type bits of `st_mode`. -/
def S_IFMT : Nat := 0o170000
def LLONG_MAX : Int := 9223372036854775807
def LLONG_MIN : Int := -9223372036854775808
/-- The page size of the virtual memory system, `sysconf (_SC_PAGESIZE)`. -/
def PAGE_SIZE : Nat := 4096
/-- The size of the address space of a process (`2^47` bytes). -/
def TASK_SIZE : Nat := 140737488355328

/-- Conversion of an integer value to `off_t` (64 bit, signed). -/
def to_off_t (x : Int) : Int :=
  (x + 9223372036854775808) % 18446744073709551616 - 9223372036854775808

/-- Conversion of an integer value to `size_t` (64 bit, unsigned). -/
def to_size_t (x : Int) : Nat :=
  (x % 18446744073709551616).toNat

/-- Conversion of an integer value to `int` (32 bit, signed). -/
def to_int (x : Int) : Int :=
  (x + 2147483648) % 4294967296 - 2147483648

/-! ## Data model -/

/-- The 16-byte partition entry, `struct mbr_table`. -/
structure mbr_table where
  boot : Nat
  start_chs : List Nat
  type : Nat
  end_chs : List Nat
  offset : Nat
  length : Nat
deriving DecidableEq, Repr

/-- A pointer to `struct mbr_partition`: `NULL`, or a node with its table, its
byte offset and length, and the `next` and `sub` pointers. -/
inductive mbr_partition where
  | NULL : mbr_partition
  | node (table : mbr_table) (offset length : Int)
      (next sub : mbr_partition) (mounted : Bool) : mbr_partition
deriving DecidableEq, Repr

/-- The image file behind the descriptor `fd`: its size and its bytes. -/
structure Image where
  size : Nat
  byte : Nat → Nat

/-- A mapping of the image file: the bytes seen through it, and the number of
bytes from its start up to the end of the last page of the file.  An access
at an index below `readable` gives a byte; an access at a higher index faults
(SIGBUS).  The program accesses a mapping only below the length it asked
for. -/
structure Mapping where
  readable : Nat
  byte : Nat → Nat

/-- The mount context, `struct mbr_data` (the file name is not needed). -/
structure mbr_data where
  fd : Image
  ro : Nat
  primary : mbr_partition

/-- The fields of `struct stat` the program fills in. -/
structure stat where
  st_mode : Nat
  st_nlink : Nat
  st_size : Int
deriving DecidableEq, Repr

namespace mbr_partition

/-- Field `table` of a node (all zero after `calloc`; unused on `NULL`). -/
def table : mbr_partition → mbr_table
  | NULL => ⟨0, [0, 0, 0], 0, [0, 0, 0], 0, 0⟩
  | node t _ _ _ _ _ => t

/-- Field `offset` of a node. -/
def offset : mbr_partition → Int
  | NULL => 0
  | node _ o _ _ _ _ => o

/-- Field `length` of a node. -/
def length : mbr_partition → Int
  | NULL => 0
  | node _ _ l _ _ _ => l

/-- Field `next` of a node. -/
def next : mbr_partition → mbr_partition
  | NULL => NULL
  | node _ _ _ n _ _ => n

/-- Field `sub` of a node. -/
def sub : mbr_partition → mbr_partition
  | NULL => NULL
  | node _ _ _ _ s _ => s

/-- Field `mounted` of a node. -/
def mounted : mbr_partition → Bool
  | NULL => false
  | node _ _ _ _ _ m => m

end mbr_partition

open mbr_partition

/-! ## The C library pieces the program calls -/

/-- The `isspace` test of the C locale. -/
def isspace (c : Char) : Bool :=
  c = ' ' || c = '\t' || c = '\n' || c = '\x0b' || c = '\x0c' || c = '\r'

/-- The `isdigit` test. -/
def isdigit (c : Char) : Bool :=
  decide ('0' ≤ c ∧ c ≤ '9')

/-- Value of a run of decimal digits. -/
def decval (ds : List Char) : Nat :=
  ds.foldl (fun a c => 10 * a + (c.toNat - 48)) 0

/-- The call `strtoll (s, &tmp, 10)` of the C library: white space is skipped,
an optional sign is read, then the longest run of decimal digits; the value
is clamped to the range of `long long`.  The result is the value and `tmp`;
with no digit at all the value is 0 and `tmp` is `s` itself. -/
def strtoll (s : List Char) : Int × List Char :=
  let s1 := s.dropWhile isspace
  let neg : Bool := match s1 with
    | c :: _ => c = '-'
    | [] => false
  let s2 := match s1 with
    | c :: t => if c = '-' ∨ c = '+' then t else s1
    | [] => s1
  let ds := s2.takeWhile isdigit
  if ds = [] then (0, s)
  else if neg then (max (-(decval ds : Int)) LLONG_MIN, s2.dropWhile isdigit)
  else (min (decval ds : Int) LLONG_MAX, s2.dropWhile isdigit)

/-- The bytes of the image file from byte offset `off` on, as they are seen
through a mapping: the bytes of the file, and 0 past its end. -/
def sector (fd : Image) (off : Int) : Nat → Nat :=
  fun i => if off.toNat + i < fd.size then fd.byte (off.toNat + i) % 256 else 0

/-- The number of bytes from byte offset `off` of the image file to the end of
the last page of the file. -/
def readable_from (fd : Image) (off : Int) : Nat :=
  (fd.size + (PAGE_SIZE - 1)) / PAGE_SIZE * PAGE_SIZE - off.toNat

/-- The call `mmap (NULL, len, PROT_READ, MAP_PRIVATE, fd, off)` on the image
file: `none` for `MAP_FAILED` (a length of 0, an offset that is negative or no
multiple of the page size, a length of `TASK_SIZE` or more), else the
mapping.  The mapping may reach past the end of the file. -/
def mmap (fd : Image) (len : Nat) (off : Int) : Option Mapping :=
  if len ≠ 0 ∧ len < TASK_SIZE ∧ 0 ≤ off ∧ off % PAGE_SIZE = 0 then
    some ⟨readable_from fd off, sector fd off⟩
  else none

/-- The call `memcpy (buf, raw, n)`: the first `n` bytes of `buf` become those
of `raw`.  Copying at least one byte from `MAP_FAILED` faults, and so does
copying a byte of the mapping past the last page of the file. -/
def memcpy (buf : Nat → Nat) (raw : Option Mapping) (n : Nat) :
    Outcome (Nat → Nat) :=
  match raw with
  | some m =>
    if n ≤ m.readable then .returns (fun i => if i < n then m.byte i else buf i)
    else .crashes
  | none => if n = 0 then .returns buf else .crashes

/-- A little-endian `uint32_t` at index `i` of a mapped sector. -/
def le32 (v : Nat → Nat) (i : Nat) : Nat :=
  v i + 256 * v (i + 1) + 65536 * v (i + 2) + 16777216 * v (i + 3)

/-- The effect of `memcpy (&table, mbr + at, 16)` on a `struct mbr_table`
(little-endian host, no padding in the struct). -/
def read_table (v : Nat → Nat) (i : Nat) : mbr_table :=
  ⟨v i, [v (i + 1), v (i + 2), v (i + 3)], v (i + 4),
    [v (i + 5), v (i + 6), v (i + 7)], le32 v (i + 8), le32 v (i + 12)⟩

/-! ## `mbr_find_partition` -/

/-- The inner loop `while (d--)` of `mbr_find_partition`: `some cur` when the
loop ran to its end, `none` when it left through `return NULL`. -/
def mbr_find_walk : Nat → mbr_partition → Outcome (Option mbr_partition)
  | 0, cur => .returns (some cur)
  | _ + 1, NULL => .crashes
  | d + 1, node _ _ _ next _ _ =>
    if next ≠ NULL then mbr_find_walk d next else .returns none

/-- The outer loop `while (1)` of `mbr_find_partition`, one unit of fuel for
each iteration.  The state is `cur`, `iter` and the caller's `*rest`; the
result is the returned pointer and `*rest`. -/
def mbr_find_loop : Nat → mbr_partition → List Char → Option (List Char) →
    Outcome (mbr_partition × Option (List Char))
  | 0, _, _, _ => .loops
  | fuel + 1, cur, iter, rest =>
    let d := (strtoll iter).1
    let tmp := (strtoll iter).2
    if d < 0 ∨ iter = tmp then .returns (NULL, rest)
    else
      match mbr_find_walk d.toNat cur with
      | .returns none => .returns (NULL, rest)
      | .returns (some cur) =>
        match tmp with
        | [] => .returns (cur, rest)
        | c :: tmp1 =>
          if c = '.' then
            match cur with
            | NULL => .crashes
            | node _ _ _ _ sub _ =>
              if sub = NULL then .returns (NULL, rest)
              else mbr_find_loop fuel sub tmp1 rest
          else if c = '/' then mbr_find_loop fuel cur iter (some tmp1)
          else .returns (NULL, rest)
      | .exits c => .exits c
      | .crashes => .crashes
      | .loops => .loops

/-- The function `mbr_find_partition (data, name, &rest)`. -/
def mbr_find_partition (fuel : Nat) (data : mbr_data) (name : List Char) :
    Outcome (mbr_partition × Option (List Char)) :=
  if name.take 4 ≠ ['/', 'm', 'b', 'r'] then .returns (NULL, none)
  else mbr_find_loop fuel data.primary (name.drop 4) none

/-! ## The operation handlers -/

/-- The function `mbr_getattr (path, stbuf)`: the returned `int` and the
contents of `*stbuf` (cleared by `memset` at entry). -/
def mbr_getattr (fuel : Nat) (data : mbr_data) (path : List Char) :
    Outcome (Int × stat) :=
  if path = ['/'] then .returns (0, ⟨S_IFDIR ||| 0o555, 2, 0⟩)
  else
    (mbr_find_partition fuel data path).bind fun r =>
      if r.1 = NULL then .returns (-ENOENT, ⟨0, 0, 0⟩)
      else if r.2 = none ∧ r.1.mounted = false then
        .returns (0, ⟨S_IFREG ||| 0o644, 1, r.1.length⟩)
      else .returns (-ENOENT, ⟨0, 0, 0⟩)

/-- The function `mbr_readdir_rec (buf, filler, pfx, part)`, with the loop
counter `iter` as an argument: the names handed to `filler`, in call order.
The buffer of `strlen (pfx) + 20` characters always holds the decimal form
of an `int` and the dot, so `snprintf` never truncates; the counter is the
position in the chain (chains are far shorter than `2^31`). -/
def mbr_readdir_rec (pfx : List Char) : mbr_partition → Nat → List (List Char)
  | NULL, _ => []
  | node table _ _ next sub _, iter =>
    (if sub ≠ NULL then
        mbr_readdir_rec (pfx ++ (Nat.repr iter).toList ++ ['.']) sub 0
          ++ [pfx ++ (Nat.repr iter).toList ++ ['.']]
      else if table.type ≠ 0x00 then [pfx ++ (Nat.repr iter).toList]
      else [])
    ++ mbr_readdir_rec pfx next (iter + 1)

/-- The function `mbr_readdir (path, buf, filler, offset, fi)`: the returned
`int` and the names handed to `filler`. -/
def mbr_readdir (data : mbr_data) (path : List Char) : Int × List (List Char) :=
  if path = ['/'] then
    (0, [['.'], ['.', '.']] ++ mbr_readdir_rec ['m', 'b', 'r'] data.primary 0)
  else (-ENOENT, [])

/-- The function `mbr_open (path, fi)`; `flags` is `fi->flags`.  The test
`fi->flags & 3 != O_RDONLY` is parsed by C as `fi->flags & (3 != O_RDONLY)`. -/
def mbr_open (fuel : Nat) (data : mbr_data) (path : List Char) (flags : Nat) :
    Outcome Int :=
  if path = ['/'] then .returns 0
  else
    (mbr_find_partition fuel data path).bind fun r =>
      if r.1 = NULL then .returns (-ENOENT)
      else if r.2 = none ∧ r.1.mounted = false then
        if data.ro ≠ 0 ∧ (flags &&& (if 3 ≠ O_RDONLY then 1 else 0)) ≠ 0 then
          .returns (-EROFS)
        else .returns 0
      else .returns (-ENOENT)

/-- The tail of `mbr_read` after the size is settled: `mmap`, `memcpy`,
`munmap` and `return size` (a `size_t` returned as `int`). -/
def mbr_read_copy (data : mbr_data) (buf : Nat → Nat) (size : Nat) (offset : Int) :
    Outcome (Int × (Nat → Nat)) :=
  (memcpy buf (mmap data.fd size offset) size).bind fun buf1 =>
    .returns (to_int size, buf1)

/-- The function `mbr_read (path, buf, size, offset, fi)`: the returned `int`
and the contents of the caller's buffer afterwards. -/
def mbr_read (fuel : Nat) (data : mbr_data) (path : List Char)
    (buf : Nat → Nat) (size : Nat) (offset : Int) : Outcome (Int × (Nat → Nat)) :=
  (mbr_find_partition fuel data path).bind fun r =>
    if r.1 = NULL then .returns (-ENOENT, buf)
    else if r.2 = none ∧ r.1.mounted = false then
      if to_off_t (offset + to_off_t size) > r.1.length then
        if offset > r.1.length then .returns (0, buf)
        else mbr_read_copy data buf (to_size_t (r.1.length - offset)) offset
      else mbr_read_copy data buf size offset
    else .returns (-ENOENT, buf)

/-! ## The partition table reader -/

/-- The function `mbr_read_ebr (data, offset)`, one unit of fuel for each
nested call.  The sector is read without a check of what `mmap` returned: the
access `mbr[0x1FE]` faults on `MAP_FAILED`, and on a mapping that begins past
the last page of the file (a mapping begins and the file's last page ends at a
page boundary, so the 512 bytes of the sector can be read all or not at
all).  A wrong signature ends the process with `exit (2)`. -/
def mbr_read_ebr (fd : Image) : Nat → Int → Outcome mbr_partition
  | 0, _ => .loops
  | fuel + 1, offset =>
    match mmap fd 512 offset with
    | none => .crashes
    | some m =>
      if m.readable < 512 then .crashes
      else
        let mbr := m.byte
        if mbr 0x1FE ≠ 0x55 ∨ mbr 0x1FF ≠ 0xAA then .exits 2
        else
          let table := read_table mbr 0x1BE
          let part_offset : Int := offset + (table.offset : Int) * 512
          let part_length : Int := (table.length : Int) * 512
          let inner_offset := le32 mbr (0x1CE + 0x008)
          (if table.type = 0x05 ∨ table.type = 0x0f then
              mbr_read_ebr fd fuel part_offset
            else .returns NULL).bind fun sub =>
          (if inner_offset ≠ 0 then
              mbr_read_ebr fd fuel (offset + (inner_offset : Int))
            else .returns NULL).bind fun next =>
          .returns (node table part_offset part_length next sub false)

/-- The second loop of `mbr_read_mbr` for one slot: the `sub` pointer of
`primary[iter]`, whose table and offset were filled in by the first loop. -/
def mbr_read_mbr_sub (fd : Image) (fuel : Nat) (table : mbr_table) (offset : Int) :
    Outcome mbr_partition :=
  if table.type = 0x05 ∨ table.type = 0x0f then mbr_read_ebr fd fuel offset
  else .returns NULL

/-- The function `mbr_read_mbr (data)`: the value stored in `data->primary`,
the head of the four chained primary slots.  `MAP_FAILED` is tested for; the
access `mbr[0x1FE]` faults on an empty file, which has no page. -/
def mbr_read_mbr (fd : Image) (fuel : Nat) : Outcome mbr_partition :=
  match mmap fd 512 0 with
  | none => .exits 2
  | some m =>
    if m.readable < 512 then .crashes
    else
      let mbr := m.byte
      if mbr 0x1FE ≠ 0x55 ∨ mbr 0x1FF ≠ 0xAA then .exits 2
      else
        let table (iter : Nat) : mbr_table := read_table mbr (0x1BE + iter * 0x010)
        let length (iter : Nat) : Int := ((table iter).length : Int) * 512
        let offset (iter : Nat) : Int := ((table iter).length : Int) * 512
        (mbr_read_mbr_sub fd fuel (table 0) (offset 0)).bind fun sub0 =>
        (mbr_read_mbr_sub fd fuel (table 1) (offset 1)).bind fun sub1 =>
        (mbr_read_mbr_sub fd fuel (table 2) (offset 2)).bind fun sub2 =>
        (mbr_read_mbr_sub fd fuel (table 3) (offset 3)).bind fun sub3 =>
        .returns
          (node (table 0) (offset 0) (length 0)
            (node (table 1) (offset 1) (length 1)
              (node (table 2) (offset 2) (length 2)
                (node (table 3) (offset 3) (length 3) NULL sub3 false)
                sub2 false)
              sub1 false)
            sub0 false)

/-! ## The sectors the table reader reads -/

/-- The sector offsets read after a call, when that call returned. -/
def reads_after {α : Type} (out : Outcome α) (l : List Int) : List Int :=
  match out with
  | .returns _ => l
  | _ => []

/-- The offsets of the sectors the call `mbr_read_ebr (data, offset)` reads, in
the order of the reads: the control flow of `mbr_read_ebr` with the reads
recorded.  An access that faults reads nothing. -/
def mbr_read_ebr_reads (fd : Image) : Nat → Int → List Int
  | 0, _ => []
  | fuel + 1, offset =>
    match mmap fd 512 offset with
    | none => []
    | some m =>
      if m.readable < 512 then []
      else
        let mbr := m.byte
        if mbr 0x1FE ≠ 0x55 ∨ mbr 0x1FF ≠ 0xAA then [offset]
        else
          let table := read_table mbr 0x1BE
          let part_offset : Int := offset + (table.offset : Int) * 512
          let inner_offset := le32 mbr (0x1CE + 0x008)
          offset ::
            ((if table.type = 0x05 ∨ table.type = 0x0f then
                mbr_read_ebr_reads fd fuel part_offset
              else []) ++
            reads_after
              (if table.type = 0x05 ∨ table.type = 0x0f then
                mbr_read_ebr fd fuel part_offset
              else .returns NULL)
              (if inner_offset ≠ 0 then
                mbr_read_ebr_reads fd fuel (offset + (inner_offset : Int))
              else []))

/-- The sectors read for one slot in the second loop of `mbr_read_mbr`. -/
def mbr_read_mbr_sub_reads (fd : Image) (fuel : Nat) (table : mbr_table) (offset : Int) :
    List Int :=
  if table.type = 0x05 ∨ table.type = 0x0f then mbr_read_ebr_reads fd fuel offset
  else []

/-- The offsets of the sectors `mbr_read_mbr (data)` reads, in the order of
the reads: the MBR sector, then the EBR sectors slot by slot. -/
def mbr_read_mbr_reads (fd : Image) (fuel : Nat) : List Int :=
  match mmap fd 512 0 with
  | none => []
  | some m =>
    if m.readable < 512 then []
    else
      let mbr := m.byte
      if mbr 0x1FE ≠ 0x55 ∨ mbr 0x1FF ≠ 0xAA then [0]
      else
        let table (iter : Nat) : mbr_table := read_table mbr (0x1BE + iter * 0x010)
        let offset (iter : Nat) : Int := ((table iter).length : Int) * 512
        0 :: (mbr_read_mbr_sub_reads fd fuel (table 0) (offset 0) ++
          reads_after (mbr_read_mbr_sub fd fuel (table 0) (offset 0))
            (mbr_read_mbr_sub_reads fd fuel (table 1) (offset 1) ++
              reads_after (mbr_read_mbr_sub fd fuel (table 1) (offset 1))
                (mbr_read_mbr_sub_reads fd fuel (table 2) (offset 2) ++
                  reads_after (mbr_read_mbr_sub fd fuel (table 2) (offset 2))
                    (mbr_read_mbr_sub_reads fd fuel (table 3) (offset 3)))))

/-! ## Fixtures -/

/-- An empty slot: a node whose table is all zero. -/
def empty_slot (next : mbr_partition) : mbr_partition :=
  node ⟨0, [0, 0, 0], 0x00, [0, 0, 0], 0, 0⟩ 0 0 next NULL false

/-- An image of three pages (12288 bytes).  Sector 0 is an MBR: slot 0 empty;
slot 1 of type 0x83, start sector 1, length 1 sector; slot 2 of type 0x05,
start sector 8, length 8 sectors; slot 3 empty.  The sectors at bytes 4096
and 8192, each at the start of a page, are EBRs, each with one entry of type
0x83, start sector 1, length 1 sector; the link field of the first holds
4096, that of the second 0.  Every other byte at position `i` is
`i % 251`. -/
def fixture_image : Image :=
  ⟨12288, fun i =>
    if i = 0x1FE ∨ i = 4096 + 0x1FE ∨ i = 8192 + 0x1FE then 0x55
    else if i = 0x1FF ∨ i = 4096 + 0x1FF ∨ i = 8192 + 0x1FF then 0xAA
    else if i = 0x1BE + 16 + 4 then 0x83
    else if i = 0x1BE + 16 + 8 then 1
    else if i = 0x1BE + 16 + 12 then 1
    else if i = 0x1BE + 32 + 4 then 0x05
    else if i = 0x1BE + 32 + 8 then 8
    else if i = 0x1BE + 32 + 12 then 8
    else if i = 4096 + 0x1BE + 4 ∨ i = 8192 + 0x1BE + 4 then 0x83
    else if i = 4096 + 0x1BE + 8 ∨ i = 8192 + 0x1BE + 8 then 1
    else if i = 4096 + 0x1BE + 12 ∨ i = 8192 + 0x1BE + 12 then 1
    else if i = 4096 + 0x1CE + 8 + 1 then 0x10
    else if i < 512 ∨ (4096 ≤ i ∧ i < 4608) ∨ (8192 ≤ i ∧ i < 8704) then 0
    else i % 251⟩

/-- Second logical partition of the fixture, the end of its chain. -/
def fixture_logical1 : mbr_partition :=
  node ⟨0, [0, 0, 0], 0x83, [0, 0, 0], 1, 1⟩ 8704 512 NULL NULL false

/-- First logical partition of the fixture. -/
def fixture_logical0 : mbr_partition :=
  node ⟨0, [0, 0, 0], 0x83, [0, 0, 0], 1, 1⟩ 4608 512 fixture_logical1 NULL false

/-- Slot 3 of the fixture: empty (type 0x00). -/
def fixture_slot3 : mbr_partition :=
  empty_slot NULL

/-- Slot 2 of the fixture: an extended partition (type 0x05) whose `sub` is
the chain of the two logical partitions. -/
def fixture_slot2 : mbr_partition :=
  node ⟨0, [0, 0, 0], 0x05, [0, 0, 0], 8, 8⟩ 4096 4096 fixture_slot3 fixture_logical0 false

/-- Slot 1 of the fixture: a plain partition (type 0x83). -/
def fixture_slot1 : mbr_partition :=
  node ⟨0, [0, 0, 0], 0x83, [0, 0, 0], 1, 1⟩ 512 512 fixture_slot2 NULL false

/-- The tree `mbr_read_mbr` builds from `fixture_image`: slot 0 empty, slot 1 a
plain partition (type 0x83), slot 2 an extended partition (type 0x05) with
two logical partitions, slot 3 empty. -/
def fixture_tree : mbr_partition :=
  empty_slot fixture_slot1

/-- The mount context of `fixture_image`, opened read-only. -/
def fixture_data : mbr_data :=
  ⟨fixture_image, 1, fixture_tree⟩

/-- An image whose first sector is an MBR with the boot signature and one
entry, slot 0: type 0x83, start sector 1, length 2 sectors. -/
def fixture_mbr_image : Image :=
  ⟨2048, fun i =>
    if i = 0x1FE then 0x55 else if i = 0x1FF then 0xAA
    else if i = 0x1BE + 4 then 0x83
    else if i = 0x1BE + 8 then 1
    else if i = 0x1BE + 12 then 2
    else 0⟩

/-- An image of `2^33` bytes whose MBR has one entry, slot 0: type 0x83, start
sector `2^23`, length `2^23` sectors (`2^32` bytes). -/
def fixture_big_image : Image :=
  ⟨8589934592, fun i =>
    if i = 0x1FE then 0x55 else if i = 0x1FF then 0xAA
    else if i = 0x1BE + 4 then 0x83
    else if i = 0x1BE + 8 + 2 then 0x80
    else if i = 0x1BE + 12 + 2 then 0x80
    else 0⟩

/-- The tree `mbr_read_mbr` builds from `fixture_big_image`. -/
def fixture_big_tree : mbr_partition :=
  node ⟨0, [0, 0, 0], 0x83, [0, 0, 0], 8388608, 8388608⟩ 4294967296 4294967296
    (empty_slot (empty_slot (empty_slot NULL))) NULL false

/-- An image of two pages with an MBR whose slot 0 is extended (type 0x05,
start and length field 8, so that the code looks for its EBR at byte 4096)
and whose sector at byte 4096 carries no boot signature. -/
def fixture_bad_ebr_image : Image :=
  ⟨8192, fun i =>
    if i = 0x1FE then 0x55 else if i = 0x1FF then 0xAA
    else if i = 0x1BE + 4 then 0x05
    else if i = 0x1BE + 8 then 8
    else if i = 0x1BE + 12 then 8
    else 0⟩

/-! ## Vocabulary of the specification -/

/-- The boot signature of the sector at byte offset `off` of the image: byte
510 is 0x55 and byte 511 is 0xAA. -/
def magic_ok (fd : Image) (off : Int) : Prop :=
  sector fd off 0x1FE = 0x55 ∧ sector fd off 0x1FF = 0xAA

instance (fd : Image) (off : Int) : Decidable (magic_ok fd off) := by
  unfold magic_ok; infer_instance

/-- The type byte of slot `i` of the MBR sector. -/
def entry_type (fd : Image) (i : Nat) : Nat :=
  fd.byte (0x1BE + 16 * i + 4) % 256

/-- No node of the tree has its `mounted` flag set: the program creates every
node with `calloc` and never assigns the field. -/
def unmounted : mbr_partition → Bool
  | NULL => true
  | node _ _ _ next sub mounted => !mounted && unmounted next && unmounted sub

/-- The nodes of one chain level in order: the node itself, then those
reached by following `next`. -/
def chain : mbr_partition → List mbr_partition
  | NULL => []
  | node table offset length next sub mounted =>
    node table offset length next sub mounted :: chain next

/-- Number of nodes of a tree. -/
def tree_size : mbr_partition → Nat
  | NULL => 0
  | node _ _ _ next sub _ => 1 + tree_size next + tree_size sub

/-- The text of a dotted index path after `/mbr`: the indices joined by
dots. -/
def dotted : List (List Char) → List Char
  | [] => []
  | [i] => i
  | i :: j :: js => i ++ '.' :: dotted (j :: js)

/-- The text of indices each followed by a dot. -/
def dotted_before : List (List Char) → List Char
  | [] => []
  | i :: is => i ++ '.' :: dotted_before is

/-- Resolution of a list of indices as the specification words it: from the
head of a chain follow `next` as many times as the first index says (not
found when the index is at least the length of the chain); for each further
index descend to `sub` (not found when there is none) and do the same. -/
def resolve (cur : mbr_partition) : List Nat → Option mbr_partition
  | [] => none
  | [i] => (chain cur)[i]?
  | i :: j :: js =>
    match (chain cur)[i]? with
    | none => none
    | some n => if n.sub = NULL then none else resolve n.sub (j :: js)

/-- A text is a run of digits when it is not empty and all its characters are
ASCII digits. -/
def is_index (ds : List Char) : Prop :=
  ds ≠ [] ∧ ∀ c ∈ ds, isdigit c = true

/-- A text at which `mbr_find_partition` gives up: `strtoll` reads a negative
value from it, or no digit at all. -/
def index_missing (t : List Char) : Prop :=
  (strtoll t).1 < 0 ∨ t = (strtoll t).2

/-- The text after an index does not go on with a digit. -/
def stops_index (rest : List Char) : Prop :=
  ∀ c t, rest = c :: t → isdigit c = false

/-- The clamped value `strtoll` reads from a run of digits, as a count of
steps. -/
def index_steps (ds : List Char) : Nat :=
  (min (decval ds : Int) LLONG_MAX).toNat

/-- A path with the literal prefix `/mbr`. -/
def mbr_path (t : List Char) : List Char :=
  '/' :: 'm' :: 'b' :: 'r' :: t

instance (ds : List Char) : Decidable (is_index ds) := by
  unfold is_index; infer_instance

instance (t : List Char) : Decidable (index_missing t) := by
  unfold index_missing; infer_instance

/-- The text `t` stands at an index position of the text `s` that follows
`/mbr`, after `k` indices: it is `s` itself (`k = 0`), or `strtoll` reads an
index from `s` (a value that is not negative, from at least one digit), stops
at a dot, and `t` stands at an index position of the text after that dot,
after `k - 1` indices. -/
def index_position : Nat → List Char → List Char → Prop
  | 0, s, t => s = t
  | k + 1, s, t =>
    ¬ index_missing s ∧ ∃ u, (strtoll s).2 = '.' :: u ∧ index_position k u t

/-- Failure of a resolution in the words of the specification: some index is
at least the length of its chain level, or a dot follows a node that has no
`sub`. -/
def resolve_fails : mbr_partition → List Nat → Prop
  | _, [] => True
  | cur, [i] => (chain cur).length ≤ i
  | cur, i :: j :: js =>
    (chain cur).length ≤ i ∨
      ∃ n, (chain cur)[i]? = some n ∧ (n.sub = NULL ∨ resolve_fails n.sub (j :: js))

/-- Listing of a chain as the specification words it: the nodes of the chain
are taken in order with their 0-based position `i`; a node with a `sub` gives
first the listing of its nested chain under the prefix extended by `i` and a
dot, then one name for itself (that extended prefix); a node with no `sub`
and a type other than 0x00 gives the prefix followed by `i`; a node with no
`sub` and type 0x00 gives nothing. -/
def listing (pfx : List Char) (part : mbr_partition) : List (List Char) :=
  (List.range (chain part).length).flatMap fun i =>
    match _h : (chain part)[i]? with
    | none => []
    | some n =>
      if n.sub ≠ NULL then
        listing (pfx ++ (Nat.repr i).toList ++ ['.']) n.sub
          ++ [pfx ++ (Nat.repr i).toList ++ ['.']]
      else if n.table.type ≠ 0x00 then [pfx ++ (Nat.repr i).toList]
      else []
termination_by tree_size part
decreasing_by
  have key : ∀ (cur : mbr_partition) (j : Nat) (m : mbr_partition),
      (chain cur)[j]? = some m → tree_size m.sub < tree_size cur := by
    intro cur
    induction cur with
    | NULL => intro j m hm; simp [chain] at hm
    | node t o l next sub mo ihn _ =>
      intro j m hm
      cases j with
      | zero =>
        simp only [chain, List.getElem?_cons_zero, Option.some.injEq] at hm
        subst hm
        simp only [mbr_partition.sub, tree_size]; omega
      | succ j1 =>
        simp only [chain, List.getElem?_cons_succ] at hm
        have := ihn j1 m hm
        simp only [tree_size]; omega
  exact key part i n _h

/-- The first entry of the sector at byte offset `off`, as `memcpy` puts it in
`part->table`. -/
def ebr_table (fd : Image) (off : Int) : mbr_table :=
  read_table (sector fd off) 0x1BE

/-- The 32-bit link field of the sector at byte offset `off`, in the second
entry slot (`inner_offset` in `mbr_read_ebr`). -/
def ebr_link (fd : Image) (off : Int) : Nat :=
  le32 (sector fd off) (0x1CE + 0x008)

/-- The type byte marks an extended partition. -/
def is_extended (type : Nat) : Prop :=
  type = 0x05 ∨ type = 0x0f

instance (type : Nat) : Decidable (is_extended type) := by
  unfold is_extended; infer_instance

/-- All the nodes of a tree: each node, then those of its nested chain, then
those further along its own chain. -/
def nodes : mbr_partition → List mbr_partition
  | NULL => []
  | node table offset length next sub mounted =>
    node table offset length next sub mounted :: (nodes sub ++ nodes next)

/-- The entry of slot `i` of the MBR sector, as `memcpy` puts it in
`data->primary[i].table`. -/
def mbr_table_at (fd : Image) (i : Nat) : mbr_table :=
  read_table (sector fd 0) (0x1BE + i * 0x010)

/-- The byte offset and length `mbr_read_mbr` gives to slot `i`: both are the
length field times 512. -/
def mbr_slot_bytes (fd : Image) (i : Nat) : Int :=
  ((mbr_table_at fd i).length : Int) * 512

/-- An image of three pages laid out as the EBR format prescribes.  The MBR
has one entry, slot 0: type 0x05, start sector 8, length 8 sectors, so the
extended partition starts at byte `X = 4096`.  The EBR at byte 4096 has a
first entry of type 0x83 (start sector 1, length 1 sector) and a second entry
of type 0x05 whose start field, the link, is 8: the next EBR is at sector 8
of the extended partition, byte `X + 8 * 512 = 8192`.  The EBR at byte 8192
has one entry of type 0x83 (start sector 1, length 1 sector) and link 0.  All
three sectors carry the boot signature; every other byte is 0. -/
def fixture_standard_image : Image :=
  ⟨12288, fun i =>
    if i = 0x1FE ∨ i = 4096 + 0x1FE ∨ i = 8192 + 0x1FE then 0x55
    else if i = 0x1FF ∨ i = 4096 + 0x1FF ∨ i = 8192 + 0x1FF then 0xAA
    else if i = 0x1BE + 4 then 0x05
    else if i = 0x1BE + 8 then 8
    else if i = 0x1BE + 12 then 8
    else if i = 4096 + 0x1BE + 4 ∨ i = 8192 + 0x1BE + 4 then 0x83
    else if i = 4096 + 0x1BE + 8 ∨ i = 8192 + 0x1BE + 8 then 1
    else if i = 4096 + 0x1BE + 12 ∨ i = 8192 + 0x1BE + 12 then 1
    else if i = 4096 + 0x1CE + 4 then 0x05
    else if i = 4096 + 0x1CE + 8 then 8
    else if i = 4096 + 0x1CE + 12 then 1
    else 0⟩

/-- An image of 2105344 bytes (514 pages) whose link field is a multiple of the
page size.  The MBR has one entry, slot 0: type 0x05, start sector 8, length
8 sectors, so the extended partition starts at byte `X = 4096`.  The EBR at
byte 4096 has a first entry of type 0x83 (start sector 1, length 1 sector)
and the link 4096.  There is an EBR at byte `4096 + 4096 = 8192`, whose entry
has type 0x83, start sector 1 and length 1 sector, and an EBR at byte
`X + 4096 * 512 = 2101248`, whose entry has type 0x0B, start sector 2 and
length 2 sectors; both have link 0.  The four sectors carry the boot
signature; every other byte is 0. -/
def fixture_link_image : Image :=
  ⟨2105344, fun i =>
    if i = 0x1FE ∨ i = 4096 + 0x1FE ∨ i = 8192 + 0x1FE ∨ i = 2101248 + 0x1FE then 0x55
    else if i = 0x1FF ∨ i = 4096 + 0x1FF ∨ i = 8192 + 0x1FF ∨ i = 2101248 + 0x1FF then 0xAA
    else if i = 0x1BE + 4 then 0x05
    else if i = 0x1BE + 8 then 8
    else if i = 0x1BE + 12 then 8
    else if i = 4096 + 0x1BE + 4 ∨ i = 8192 + 0x1BE + 4 then 0x83
    else if i = 4096 + 0x1BE + 8 ∨ i = 8192 + 0x1BE + 8 then 1
    else if i = 4096 + 0x1BE + 12 ∨ i = 8192 + 0x1BE + 12 then 1
    else if i = 4096 + 0x1CE + 4 then 0x05
    else if i = 4096 + 0x1CE + 8 + 1 then 0x10
    else if i = 4096 + 0x1CE + 12 then 1
    else if i = 2101248 + 0x1BE + 4 then 0x0B
    else if i = 2101248 + 0x1BE + 8 then 2
    else if i = 2101248 + 0x1BE + 12 then 2
    else 0⟩

/-- A node gets a name in the listing when it has a `sub` or a type other than
0x00. -/
def is_named (n : mbr_partition) : Bool :=
  decide (n.sub ≠ NULL ∨ n.table.type ≠ 0x00)

/-- Number of the nodes of a tree that get a name in the listing. -/
def named_count (part : mbr_partition) : Nat :=
  ((nodes part).filter is_named).length

/-- The name of the node `n` reached by the positions `p`: the prefix, the
positions in decimal joined by dots, and a closing dot when the node has a
`sub`. -/
def node_name (pfx : List Char) (p : List Nat) (n : mbr_partition) : List Char :=
  pfx ++ dotted (p.map fun i => (Nat.repr i).toList) ++ (if n.sub ≠ NULL then ['.'] else [])

/-- A name that consists of the prefix, the decimal form of the position `i`
and a remainder that does not go on with a digit. -/
def name_at (pfx : List Char) (i : Nat) (name : List Char) : Prop :=
  ∃ t, name = pfx ++ (Nat.repr i).toList ++ t ∧ stops_index t

/-- A sector the program can read as an EBR: it begins at a page boundary
(`mmap` fails elsewhere), lies inside the image and carries the boot
signature. -/
def ebr_readable (fd : Image) (off : Int) : Prop :=
  0 ≤ off ∧ off % PAGE_SIZE = 0 ∧ off + 512 ≤ fd.size ∧ magic_ok fd off

instance (fd : Image) (off : Int) : Decidable (ebr_readable fd off) := by
  unfold ebr_readable; infer_instance

/-- The program can read the sector at byte offset `off` through a mapping:
the offset is one `mmap` accepts, and the file has a page there. -/
def sector_mapped (fd : Image) (off : Int) : Prop :=
  0 ≤ off ∧ off % PAGE_SIZE = 0 ∧ 512 ≤ readable_from fd off

instance (fd : Image) (off : Int) : Decidable (sector_mapped fd off) := by
  unfold sector_mapped; infer_instance

@[simp] theorem Outcome.bind_returns {α β : Type} (a : α) (f : α → Outcome β) :
    (Outcome.returns a).bind f = f a := rfl

@[simp] theorem Outcome.bind_exits {α β : Type} (c : Nat) (f : α → Outcome β) :
    (Outcome.exits c : Outcome α).bind f = .exits c := rfl

@[simp] theorem Outcome.bind_crashes {α β : Type} (f : α → Outcome β) :
    (Outcome.crashes : Outcome α).bind f = .crashes := rfl

@[simp] theorem Outcome.bind_loops {α β : Type} (f : α → Outcome β) :
    (Outcome.loops : Outcome α).bind f = .loops := rfl

theorem Outcome.bind_eq_returns {α β : Type} {x : Outcome α} {f : α → Outcome β} {b : β}
    (h : x.bind f = .returns b) : ∃ a, x = .returns a ∧ f a = .returns b := by
  cases x with
  | returns a => exact ⟨a, rfl, h⟩
  | exits c => cases h
  | crashes => cases h
  | loops => cases h

/-! ## Integer conversions -/

/-- Within these bounds the conversions in `mbr_read` change no value. -/
theorem to_off_t_of_bounds (x : Int) (h0 : 0 ≤ x) (h1 : x < 9223372036854775808) :
    to_off_t x = x := by
  unfold to_off_t; omega

/-- A digit is no white space, no sign, no dot and no slash. -/
theorem isdigit_not_special (c : Char) (h : isdigit c = true) :
    isspace c = false ∧ c ≠ '-' ∧ c ≠ '+' ∧ c ≠ '.' ∧ c ≠ '/' := by
  refine ⟨?_, ?_, ?_, ?_, ?_⟩
  · cases hsp : isspace c with
    | false => rfl
    | true =>
      simp only [isspace, Bool.or_eq_true, decide_eq_true_eq] at hsp
      rcases hsp with ((((rfl | rfl) | rfl) | rfl) | rfl) | rfl <;>
        exact absurd h (by decide)
  all_goals (rintro rfl; exact absurd h (by decide))

theorem takeWhile_isdigit_stops (rest : List Char) (h : stops_index rest) :
    rest.takeWhile isdigit = [] ∧ rest.dropWhile isdigit = rest := by
  cases rest with
  | nil => simp
  | cons c t => simp [List.takeWhile, List.dropWhile, h c t rfl]

/-- On a run of digits followed by a text that does not go on with a digit,
`strtoll` returns the value of the run, clamped to `LLONG_MAX`, and stops
right after the run. -/
theorem strtoll_index (ds rest : List Char) (hds : is_index ds)
    (hrest : stops_index rest) :
    strtoll (ds ++ rest) = (min (decval ds : Int) LLONG_MAX, rest) := by
  obtain ⟨hne, hall⟩ := hds
  cases ds with
  | nil => exact absurd rfl hne
  | cons c ds1 =>
    have hc : isdigit c = true := hall c (List.mem_cons_self _ _)
    obtain ⟨hsp, hm, hp, _, _⟩ := isdigit_not_special c hc
    have htw : (c :: ds1 ++ rest).takeWhile isdigit = c :: ds1 := by
      rw [List.takeWhile_append_of_pos hall, (takeWhile_isdigit_stops rest hrest).1]
      simp
    have hdw : (c :: ds1 ++ rest).dropWhile isdigit = rest := by
      rw [List.dropWhile_append_of_pos hall, (takeWhile_isdigit_stops rest hrest).2]
    have hsk : (c :: ds1 ++ rest).dropWhile isspace = c :: ds1 ++ rest := by
      simp [List.dropWhile, hsp]
    unfold strtoll
    simp only [hsk]
    simp only [List.cons_append, hm, hp, or_self, if_false, decide_False] at htw hdw ⊢
    simp [htw, hdw]

/-- The text `0/s` is read by `strtoll` as 0, stopping at the slash. -/
theorem strtoll_zero_slash (s : List Char) :
    strtoll ('0' :: '/' :: s) = (0, '/' :: s) := by
  simp [strtoll, isspace, isdigit, List.takeWhile, List.dropWhile, decval, LLONG_MAX]

theorem stops_index_dot (t : List Char) : stops_index ('.' :: t) := by
  intro c t1 h
  simp only [List.cons.injEq] at h
  obtain ⟨rfl, _⟩ := h
  decide

theorem stops_index_nil : stops_index [] := by
  intro c t1 h; cases h

/-- A text that is empty or begins with a character that is no digit, no
white space and no sign holds no index. -/
theorem index_missing_of_first (t : List Char)
    (h : t = [] ∨ ∃ c t1, t = c :: t1 ∧ isdigit c = false ∧ isspace c = false ∧
      c ≠ '+' ∧ c ≠ '-') :
    index_missing t := by
  rcases h with rfl | ⟨c, t1, rfl, hd, hs, hp, hm⟩
  · right; simp [strtoll]
  · right
    simp [strtoll, List.dropWhile, List.takeWhile, hd, hs, hp, hm]

/-! ## Chains -/

theorem chain_length_le_tree_size (cur : mbr_partition) :
    (chain cur).length ≤ tree_size cur := by
  induction cur with
  | NULL => simp [chain, tree_size]
  | node t o l next sub m ihn _ =>
    simp only [chain, tree_size, List.length_cons]; omega

/-- A node of a chain is a real node, and its tree is part of the tree of
the head. -/
theorem chain_getElem (cur : mbr_partition) :
    ∀ (i : Nat) (n : mbr_partition), (chain cur)[i]? = some n →
      n ≠ NULL ∧ tree_size n ≤ tree_size cur := by
  induction cur with
  | NULL => intro i n h; simp [chain] at h
  | node t o l next sub m ihn _ =>
    intro i n h
    cases i with
    | zero =>
      simp only [chain, List.getElem?_cons_zero, Option.some.injEq] at h
      subst h
      exact ⟨by simp, le_refl _⟩
    | succ j =>
      simp only [chain, List.getElem?_cons_succ] at h
      obtain ⟨h1, h2⟩ := ihn j n h
      exact ⟨h1, by simp only [tree_size]; omega⟩

theorem tree_size_sub_lt (n : mbr_partition) (h : n ≠ NULL) :
    tree_size n.sub < tree_size n := by
  cases n with
  | NULL => exact absurd rfl h
  | node t o l next sub m => simp only [mbr_partition.sub, tree_size]; omega

theorem tree_size_next_lt (n : mbr_partition) (h : n ≠ NULL) :
    tree_size n.next < tree_size n := by
  cases n with
  | NULL => exact absurd rfl h
  | node t o l next sub m => simp only [mbr_partition.next, tree_size]; omega

/-- A chain of exactly two nodes: both are real, and they differ. -/
theorem chain_pair (s a b : mbr_partition) (h : chain s = [a, b]) :
    s = a ∧ a ≠ NULL ∧ b ≠ NULL ∧ a ≠ b := by
  have ha := chain_getElem s 0 a (by rw [h]; rfl)
  have hb := chain_getElem s 1 b (by rw [h]; rfl)
  cases s with
  | NULL => simp [chain] at h
  | node t o l next sub m =>
    simp only [chain, List.cons.injEq] at h
    obtain ⟨h1, h2⟩ := h
    cases next with
    | NULL => simp [chain] at h2
    | node t1 o1 l1 next1 sub1 m1 =>
      simp only [chain, List.cons.injEq] at h2
      obtain ⟨h3, _⟩ := h2
      refine ⟨h1, ha.1, hb.1, ?_⟩
      intro hab
      have hsz := congrArg tree_size hab
      rw [← h1, ← h3] at hsz
      simp only [tree_size] at hsz
      omega

/-- The clamp to `LLONG_MAX` does not show on a tree of fewer than `2^63`
nodes: the position is past the end of every chain either way. -/
theorem chain_getElem_index_steps (ds : List Char) (cur : mbr_partition)
    (hsize : tree_size cur < 9223372036854775808) :
    (chain cur)[index_steps ds]? = (chain cur)[decval ds]? := by
  have hlen := chain_length_le_tree_size cur
  unfold index_steps
  by_cases hv : (decval ds : Int) ≤ LLONG_MAX
  · rw [min_eq_left hv]; simp
  · rw [min_eq_right (by omega)]
    have h1 : (chain cur)[LLONG_MAX.toNat]? = none := by
      apply List.getElem?_eq_none
      simp only [LLONG_MAX]; omega
    have h2 : (chain cur)[decval ds]? = none := by
      apply List.getElem?_eq_none
      simp only [LLONG_MAX] at hv; omega
    rw [h1, h2]

/-! ## The loop of `mbr_find_partition` -/

/-- The loop `while (d--)` started on a real node returns the node at position
`d` of the chain, and leaves through `return NULL` when there is none. -/
theorem mbr_find_walk_chain (d : Nat) :
    ∀ cur : mbr_partition, cur ≠ NULL →
      mbr_find_walk d cur = .returns ((chain cur)[d]?) := by
  induction d with
  | zero =>
    intro cur h
    cases cur with
    | NULL => exact absurd rfl h
    | node t o l next sub m => simp [mbr_find_walk, chain]
  | succ k ih =>
    intro cur h
    cases cur with
    | NULL => exact absurd rfl h
    | node t o l next sub m =>
      by_cases hn : next = NULL
      · subst hn; simp [mbr_find_walk, chain]
      · simp [mbr_find_walk, chain, hn, ih next hn]

/-- One round of the loop on a run of digits: the walk, then the test of the
character after the run. -/
theorem mbr_find_loop_index (fuel : Nat) (cur : mbr_partition) (ds rest0 : List Char)
    (rest : Option (List Char)) (hds : is_index ds) (h : cur ≠ NULL) :
    stops_index rest0 →
    mbr_find_loop (fuel + 1) cur (ds ++ rest0) rest =
      match (chain cur)[index_steps ds]? with
      | none => .returns (NULL, rest)
      | some n =>
        match rest0 with
        | [] => .returns (n, rest)
        | c :: t =>
          if c = '.' then
            if n.sub = NULL then .returns (NULL, rest)
            else mbr_find_loop fuel n.sub t rest
          else if c = '/' then mbr_find_loop fuel n (ds ++ rest0) (some t)
          else .returns (NULL, rest) := by
  intro hrest
  have hst := strtoll_index ds rest0 hds hrest
  have hne : ds ++ rest0 ≠ rest0 := by
    intro heq
    have := congrArg List.length heq
    have hpos : 0 < ds.length := List.length_pos.mpr hds.1
    simp only [List.length_append] at this
    omega
  have hd : ¬ (min (decval ds : Int) LLONG_MAX < 0) := by
    simp only [LLONG_MAX]; omega
  rw [mbr_find_loop]
  simp only [hst, hd, hne, or_self, if_false]
  rw [mbr_find_walk_chain _ cur h]
  have hidx : (min (decval ds : Int) LLONG_MAX).toNat = index_steps ds := rfl
  rw [hidx]
  cases hget : (chain cur)[index_steps ds]? with
  | none => rfl
  | some n =>
    obtain ⟨hn, _⟩ := chain_getElem cur _ n hget
    cases n with
    | NULL => exact absurd rfl hn
    | node t o l next sub m =>
      cases rest0 with
      | nil => rfl
      | cons c t1 => simp only [mbr_partition.sub]

theorem mbr_find_partition_mbr_path (fuel : Nat) (data : mbr_data) (t : List Char) :
    mbr_find_partition fuel data (mbr_path t) = mbr_find_loop fuel data.primary t none := by
  simp [mbr_find_partition, mbr_path]

/-- When `strtoll` reads the value 0 and stops at a slash, the loop of
`mbr_find_partition` comes back to the same state and never leaves. -/
theorem mbr_find_loop_slash_zero (iter t : List Char)
    (h : strtoll iter = (0, '/' :: t)) (hne : iter ≠ '/' :: t) :
    ∀ (fuel : Nat) (cur : mbr_partition) (rest : Option (List Char)),
      mbr_find_loop fuel cur iter rest = .loops := by
  intro fuel
  induction fuel with
  | zero => intro cur rest; rfl
  | succ n ih =>
    intro cur rest
    simp [mbr_find_loop, h, hne, mbr_find_walk, ih]

/-- The loop gives up with `NULL` on a text of indices, each followed by a
dot, that goes on with something `strtoll` reads no index from. -/
theorem mbr_find_loop_index_missing (t : List Char) (ht : index_missing t)
    (idxs : List (List Char)) :
    ∀ (fuel : Nat) (cur : mbr_partition) (rest : Option (List Char)),
      (∀ ds ∈ idxs, is_index ds) → (idxs ≠ [] → cur ≠ NULL) → idxs.length < fuel →
      mbr_find_loop fuel cur (dotted_before idxs ++ t) rest = .returns (NULL, rest) := by
  induction idxs with
  | nil =>
    intro fuel cur rest _ _ hfuel
    cases fuel with
    | zero => simp at hfuel
    | succ f =>
      simp only [dotted_before, List.nil_append]
      rw [mbr_find_loop]
      simp only [index_missing] at ht
      simp [ht]
  | cons i is ih =>
    intro fuel cur rest hall hcur0 hfuel
    have hcur : cur ≠ NULL := hcur0 (by simp)
    cases fuel with
    | zero => simp at hfuel
    | succ f =>
      have hi : is_index i := hall i (List.mem_cons_self _ _)
      have his : ∀ ds ∈ is, is_index ds := fun ds h => hall ds (List.mem_cons_of_mem _ h)
      have htxt : dotted_before (i :: is) ++ t = i ++ '.' :: (dotted_before is ++ t) := by
        simp [dotted_before]
      rw [htxt, mbr_find_loop_index f cur i _ rest hi hcur (stops_index_dot _)]
      cases hget : (chain cur)[index_steps i]? with
      | none => rfl
      | some n =>
        obtain ⟨hn, _⟩ := chain_getElem cur _ n hget
        by_cases hsub : n.sub = NULL
        · simp [hsub]
        · simp only [hsub, if_true, if_false]
          exact ih f n.sub rest his (fun _ => hsub) (by simpa using hfuel)

/-- The loop gives up with `NULL` on a text that has, at one of its index
positions, something `strtoll` reads no index from. -/
theorem mbr_find_loop_index_position (k : Nat) :
    ∀ (fuel : Nat) (cur : mbr_partition) (s t : List Char) (rest : Option (List Char)),
      index_position k s t → index_missing t → (k ≠ 0 → cur ≠ NULL) → k < fuel →
      mbr_find_loop fuel cur s rest = .returns (NULL, rest) := by
  induction k with
  | zero =>
    intro fuel cur s t rest hp ht _ hfuel
    cases fuel with
    | zero => omega
    | succ f =>
      have hst : s = t := hp
      subst hst
      rw [mbr_find_loop]
      simp only [index_missing] at ht
      simp [ht]
  | succ k ih =>
    intro fuel cur s t rest hp ht hcur0 hfuel
    obtain ⟨hacc, u, hu, hrest⟩ := hp
    have hcur : cur ≠ NULL := hcur0 (by simp)
    cases fuel with
    | zero => omega
    | succ f =>
      have hnot : ¬ ((strtoll s).1 < 0 ∨ s = (strtoll s).2) := hacc
      rw [mbr_find_loop]
      simp only [hnot, if_false]
      rw [mbr_find_walk_chain _ cur hcur]
      cases hget : (chain cur)[((strtoll s).1).toNat]? with
      | none => rfl
      | some n =>
        obtain ⟨hn, _⟩ := chain_getElem cur _ n hget
        cases n with
        | NULL => exact absurd rfl hn
        | node tb o l nx sub m =>
          simp only [hu, if_true]
          by_cases hsub : sub = NULL
          · simp [hsub]
          · simp only [hsub, if_false]
            exact ih f sub u t rest hrest ht (fun _ => hsub) (by omega)

theorem resolve_none_iff (is : List Nat) :
    ∀ cur : mbr_partition, resolve cur is = none ↔ resolve_fails cur is := by
  induction is with
  | nil => intro cur; simp [resolve, resolve_fails]
  | cons i js ih =>
    intro cur
    cases js with
    | nil => simp [resolve, resolve_fails]
    | cons j js1 =>
      simp only [resolve, resolve_fails]
      cases hget : (chain cur)[i]? with
      | none =>
        have := List.getElem?_eq_none_iff.mp hget
        simp [this]
      | some n =>
        have hlt : ¬ (chain cur).length ≤ i := by
          intro hle
          rw [List.getElem?_eq_none hle] at hget
          cases hget
        by_cases hsub : n.sub = NULL
        · simp [hsub]
        · simp [hsub, hlt, ih n.sub]

theorem resolve_some_ne_null (is : List Nat) :
    ∀ (cur n : mbr_partition), resolve cur is = some n → n ≠ NULL := by
  induction is with
  | nil => intro cur n h; simp [resolve] at h
  | cons i js ih =>
    intro cur n h
    cases js with
    | nil =>
      simp only [resolve] at h
      exact (chain_getElem cur i n h).1
    | cons j js1 =>
      simp only [resolve] at h
      cases hget : (chain cur)[i]? with
      | none => rw [hget] at h; cases h
      | some m =>
        rw [hget] at h
        by_cases hsub : m.sub = NULL
        · simp [hsub] at h
        · simp only [hsub, if_false] at h
          exact ih m.sub n h

/-- The loop of `mbr_find_partition` on a dotted run of indices returns what
the resolution of the specification gives, within one round for each index. -/
theorem mbr_find_loop_dotted (idxs : List (List Char)) :
    ∀ (fuel : Nat) (cur : mbr_partition) (rest : Option (List Char)),
      idxs ≠ [] → (∀ ds ∈ idxs, is_index ds) → cur ≠ NULL →
      tree_size cur < 9223372036854775808 → idxs.length ≤ fuel →
      mbr_find_loop fuel cur (dotted idxs) rest
        = .returns ((resolve cur (idxs.map decval)).getD NULL, rest) := by
  induction idxs with
  | nil => intro _ _ _ h; exact absurd rfl h
  | cons i js ih =>
    intro fuel cur rest _ hall hcur hsize hfuel
    have hi : is_index i := hall i (List.mem_cons_self _ _)
    have hjs : ∀ ds ∈ js, is_index ds := fun ds h => hall ds (List.mem_cons_of_mem _ h)
    cases fuel with
    | zero => simp at hfuel
    | succ f =>
      cases js with
      | nil =>
        have htxt : dotted [i] = i ++ [] := by simp [dotted]
        rw [htxt, mbr_find_loop_index f cur i [] rest hi hcur stops_index_nil,
          chain_getElem_index_steps i cur hsize]
        simp only [List.map, resolve]
        cases (chain cur)[decval i]? <;> rfl
      | cons j js1 =>
        have htxt : dotted (i :: j :: js1) = i ++ '.' :: dotted (j :: js1) := by
          simp [dotted]
        rw [htxt, mbr_find_loop_index f cur i _ rest hi hcur (stops_index_dot _),
          chain_getElem_index_steps i cur hsize]
        simp only [List.map, resolve]
        cases hget : (chain cur)[decval i]? with
        | none => rfl
        | some n =>
          obtain ⟨hn, hle⟩ := chain_getElem cur _ n hget
          by_cases hsub : n.sub = NULL
          · simp [hsub]
          · have hlt := tree_size_sub_lt n hn
            simp only [hsub, if_true, if_false]
            exact ih f n.sub rest (by simp) hjs hsub (by omega) (by simpa using hfuel)

/-! ## Mapping a sector -/

/-- The mapping of a sector: `mmap` fails exactly for an offset that is
negative or no multiple of the page size. -/
theorem mmap_512 (fd : Image) (off : Int) :
    mmap fd 512 off =
      if 0 ≤ off ∧ off % (PAGE_SIZE : Int) = 0 then
        some ⟨readable_from fd off, sector fd off⟩
      else none := by
  unfold mmap
  by_cases h : 0 ≤ off ∧ off % (PAGE_SIZE : Int) = 0
  · rw [if_pos h, if_pos ⟨by decide, by decide, h.1, h.2⟩]
  · rw [if_neg h, if_neg (fun hc => h ⟨hc.2.2.1, hc.2.2.2⟩)]

/-- The signature test of the program on a mapped sector. -/
theorem magic_test (fd : Image) (off : Int) :
    (sector fd off 0x1FE ≠ 0x55 ∨ sector fd off 0x1FF ≠ 0xAA) ↔ ¬ magic_ok fd off :=
  not_and_or.symm

/-- A sector with the boot signature lies inside the file. -/
theorem magic_ok_inside (fd : Image) (off : Int) (h0 : 0 ≤ off) (hm : magic_ok fd off) :
    off + 512 ≤ fd.size := by
  have h := hm.2
  unfold sector at h
  split at h
  · omega
  · cases h

/-- A sector that begins at a page boundary inside the file has a page. -/
theorem sector_mapped_of_inside (fd : Image) (off : Int) (h0 : 0 ≤ off)
    (ha : off % (PAGE_SIZE : Int) = 0) (hin : off + 512 ≤ fd.size) :
    sector_mapped fd off := by
  refine ⟨h0, ha, ?_⟩
  simp only [readable_from, PAGE_SIZE] at ha ⊢
  omega

/-- The sectors the program reads as an EBR are those it can map and finds the
boot signature in. -/
theorem ebr_readable_iff (fd : Image) (off : Int) :
    ebr_readable fd off ↔ sector_mapped fd off ∧ magic_ok fd off := by
  constructor
  · rintro ⟨h0, ha, hin, hm⟩
    exact ⟨sector_mapped_of_inside fd off h0 ha hin, hm⟩
  · rintro ⟨⟨h0, ha, _⟩, hm⟩
    exact ⟨h0, ha, magic_ok_inside fd off h0 hm, hm⟩

/-- The first sector can be read through its mapping unless the file is
empty. -/
theorem readable_from_zero (fd : Image) : readable_from fd 0 < 512 ↔ fd.size = 0 := by
  simp only [readable_from, PAGE_SIZE, Int.toNat_zero]
  omega

/-- One call of `mbr_read_ebr`: a fault when the sector cannot be mapped and
read, `exit (2)` when it lacks the boot signature; else the nested chain is
read (for an extended entry), then the rest of the chain (for a link other
than 0), and the node is returned with its offset and length from the first
entry of the sector. -/
theorem mbr_read_ebr_unfold (fd : Image) (fuel : Nat) (off : Int) :
    mbr_read_ebr fd (fuel + 1) off =
      if ¬ sector_mapped fd off then .crashes
      else if ¬ magic_ok fd off then .exits 2
      else
        (if is_extended (ebr_table fd off).type then
            mbr_read_ebr fd fuel (off + ((ebr_table fd off).offset : Int) * 512)
          else .returns NULL).bind fun sub =>
        (if ebr_link fd off ≠ 0 then mbr_read_ebr fd fuel (off + (ebr_link fd off : Int))
          else .returns NULL).bind fun next =>
        .returns (node (ebr_table fd off) (off + ((ebr_table fd off).offset : Int) * 512)
          (((ebr_table fd off).length : Int) * 512) next sub false) := by
  rw [mbr_read_ebr, mmap_512]
  by_cases h1 : 0 ≤ off ∧ off % (PAGE_SIZE : Int) = 0
  · rw [if_pos h1]
    simp only
    by_cases h2 : readable_from fd off < 512
    · have hn : ¬ sector_mapped fd off := fun hc => absurd hc.2.2 (by omega)
      rw [if_pos h2, if_pos hn]
    · have hy : ¬ ¬ sector_mapped fd off := not_not.mpr ⟨h1.1, h1.2, by omega⟩
      rw [if_neg h2, if_neg hy]
      by_cases hm : magic_ok fd off
      · rw [if_neg ((magic_test fd off).not.mpr (not_not.mpr hm)), if_neg (not_not.mpr hm)]
        rfl
      · rw [if_pos ((magic_test fd off).mpr hm), if_pos hm]
  · have hn : ¬ sector_mapped fd off := fun hc => h1 ⟨hc.1, hc.2.1⟩
    rw [if_neg h1, if_pos hn]

/-- The reads of one call of `mbr_read_ebr`, as in `mbr_read_ebr_unfold`. -/
theorem mbr_read_ebr_reads_unfold (fd : Image) (fuel : Nat) (off : Int) :
    mbr_read_ebr_reads fd (fuel + 1) off =
      if ¬ sector_mapped fd off then []
      else if ¬ magic_ok fd off then [off]
      else
        off ::
          ((if is_extended (ebr_table fd off).type then
              mbr_read_ebr_reads fd fuel (off + ((ebr_table fd off).offset : Int) * 512)
            else []) ++
          reads_after
            (if is_extended (ebr_table fd off).type then
              mbr_read_ebr fd fuel (off + ((ebr_table fd off).offset : Int) * 512)
            else .returns NULL)
            (if ebr_link fd off ≠ 0 then
              mbr_read_ebr_reads fd fuel (off + (ebr_link fd off : Int))
            else [])) := by
  rw [mbr_read_ebr_reads, mmap_512]
  by_cases h1 : 0 ≤ off ∧ off % (PAGE_SIZE : Int) = 0
  · rw [if_pos h1]
    simp only
    by_cases h2 : readable_from fd off < 512
    · have hn : ¬ sector_mapped fd off := fun hc => absurd hc.2.2 (by omega)
      rw [if_pos h2, if_pos hn]
    · have hy : ¬ ¬ sector_mapped fd off := not_not.mpr ⟨h1.1, h1.2, by omega⟩
      rw [if_neg h2, if_neg hy]
      by_cases hm : magic_ok fd off
      · rw [if_neg ((magic_test fd off).not.mpr (not_not.mpr hm)), if_neg (not_not.mpr hm)]
        rfl
      · rw [if_pos ((magic_test fd off).mpr hm), if_pos hm]
  · have hn : ¬ sector_mapped fd off := fun hc => h1 ⟨hc.1, hc.2.1⟩
    rw [if_neg h1, if_pos hn]

/-- The function `mbr_read_mbr` case by case: a fault on an empty file,
`exit (2)` on a first sector without the boot signature; else the four slots
are chained in table order, each with the result of its own call of
`mbr_read_mbr_sub`. -/
theorem mbr_read_mbr_unfold (fd : Image) (fuel : Nat) :
    mbr_read_mbr fd fuel =
      if fd.size = 0 then .crashes
      else if ¬ magic_ok fd 0 then .exits 2
      else
        (mbr_read_mbr_sub fd fuel (mbr_table_at fd 0) (mbr_slot_bytes fd 0)).bind fun sub0 =>
        (mbr_read_mbr_sub fd fuel (mbr_table_at fd 1) (mbr_slot_bytes fd 1)).bind fun sub1 =>
        (mbr_read_mbr_sub fd fuel (mbr_table_at fd 2) (mbr_slot_bytes fd 2)).bind fun sub2 =>
        (mbr_read_mbr_sub fd fuel (mbr_table_at fd 3) (mbr_slot_bytes fd 3)).bind fun sub3 =>
        .returns
          (node (mbr_table_at fd 0) (mbr_slot_bytes fd 0) (mbr_slot_bytes fd 0)
            (node (mbr_table_at fd 1) (mbr_slot_bytes fd 1) (mbr_slot_bytes fd 1)
              (node (mbr_table_at fd 2) (mbr_slot_bytes fd 2) (mbr_slot_bytes fd 2)
                (node (mbr_table_at fd 3) (mbr_slot_bytes fd 3) (mbr_slot_bytes fd 3)
                  NULL sub3 false)
                sub2 false)
              sub1 false)
            sub0 false) := by
  rw [mbr_read_mbr, mmap_512, if_pos ⟨le_refl _, by decide⟩]
  simp only
  by_cases h2 : fd.size = 0
  · rw [if_pos ((readable_from_zero fd).mpr h2), if_pos h2]
  · rw [if_neg (fun hc => h2 ((readable_from_zero fd).mp hc)), if_neg h2]
    by_cases hm : magic_ok fd 0
    · rw [if_neg ((magic_test fd 0).not.mpr (not_not.mpr hm)), if_neg (not_not.mpr hm)]
      rfl
    · rw [if_pos ((magic_test fd 0).mpr hm), if_pos hm]

/-- The reads of `mbr_read_mbr`, as in `mbr_read_mbr_unfold`. -/
theorem mbr_read_mbr_reads_unfold (fd : Image) (fuel : Nat) :
    mbr_read_mbr_reads fd fuel =
      if fd.size = 0 then []
      else if ¬ magic_ok fd 0 then [0]
      else
        0 :: (mbr_read_mbr_sub_reads fd fuel (mbr_table_at fd 0) (mbr_slot_bytes fd 0) ++
          reads_after (mbr_read_mbr_sub fd fuel (mbr_table_at fd 0) (mbr_slot_bytes fd 0))
            (mbr_read_mbr_sub_reads fd fuel (mbr_table_at fd 1) (mbr_slot_bytes fd 1) ++
              reads_after (mbr_read_mbr_sub fd fuel (mbr_table_at fd 1) (mbr_slot_bytes fd 1))
                (mbr_read_mbr_sub_reads fd fuel (mbr_table_at fd 2) (mbr_slot_bytes fd 2) ++
                  reads_after
                    (mbr_read_mbr_sub fd fuel (mbr_table_at fd 2) (mbr_slot_bytes fd 2))
                    (mbr_read_mbr_sub_reads fd fuel (mbr_table_at fd 3)
                      (mbr_slot_bytes fd 3))))) := by
  rw [mbr_read_mbr_reads, mmap_512, if_pos ⟨le_refl _, by decide⟩]
  simp only
  by_cases h2 : fd.size = 0
  · rw [if_pos ((readable_from_zero fd).mpr h2), if_pos h2]
  · rw [if_neg (fun hc => h2 ((readable_from_zero fd).mp hc)), if_neg h2]
    by_cases hm : magic_ok fd 0
    · rw [if_neg ((magic_test fd 0).not.mpr (not_not.mpr hm)), if_neg (not_not.mpr hm)]
      rfl
    · rw [if_pos ((magic_test fd 0).mpr hm), if_pos hm]

/-- One call of `mbr_read_ebr` on a sector the program can read as an EBR. -/
theorem mbr_read_ebr_step (fd : Image) (fuel : Nat) (off : Int) (hr : ebr_readable fd off) :
    mbr_read_ebr fd (fuel + 1) off =
      (if is_extended (ebr_table fd off).type then
          mbr_read_ebr fd fuel (off + ((ebr_table fd off).offset : Int) * 512)
        else .returns NULL).bind fun sub =>
      (if ebr_link fd off ≠ 0 then mbr_read_ebr fd fuel (off + (ebr_link fd off : Int))
        else .returns NULL).bind fun next =>
      .returns (node (ebr_table fd off) (off + ((ebr_table fd off).offset : Int) * 512)
        (((ebr_table fd off).length : Int) * 512) next sub false) := by
  obtain ⟨hs, hm⟩ := (ebr_readable_iff fd off).mp hr
  rw [mbr_read_ebr_unfold, if_neg (not_not.mpr hs), if_neg (not_not.mpr hm)]

/-- A call of `mbr_read_ebr` that returns has read a sector at a page boundary
inside the image with the boot signature, and returns a node built as in
`mbr_read_ebr_step` from the results of the two nested calls. -/
theorem mbr_read_ebr_returns (fd : Image) (fuel : Nat) (off : Int) (t : mbr_partition)
    (h : mbr_read_ebr fd fuel off = .returns t) :
    ∃ (f : Nat) (sub next : mbr_partition), fuel = f + 1 ∧ ebr_readable fd off ∧
      (if is_extended (ebr_table fd off).type then
          mbr_read_ebr fd f (off + ((ebr_table fd off).offset : Int) * 512)
        else .returns NULL) = .returns sub ∧
      (if ebr_link fd off ≠ 0 then mbr_read_ebr fd f (off + (ebr_link fd off : Int))
        else .returns NULL) = .returns next ∧
      t = node (ebr_table fd off) (off + ((ebr_table fd off).offset : Int) * 512)
        (((ebr_table fd off).length : Int) * 512) next sub false := by
  cases fuel with
  | zero => simp [mbr_read_ebr] at h
  | succ f =>
    rw [mbr_read_ebr_unfold] at h
    by_cases hs : sector_mapped fd off
    · rw [if_neg (not_not.mpr hs)] at h
      by_cases hm : magic_ok fd off
      · rw [if_neg (not_not.mpr hm)] at h
        obtain ⟨sub, hsub, h⟩ := Outcome.bind_eq_returns h
        obtain ⟨next, hn, h⟩ := Outcome.bind_eq_returns h
        simp only [Outcome.returns.injEq] at h
        exact ⟨f, sub, next, rfl, (ebr_readable_iff fd off).mpr ⟨hs, hm⟩, hsub, hn, h.symm⟩
      · rw [if_pos hm] at h; cases h
    · rw [if_pos hs] at h; cases h

/-- A call of `mbr_read_mbr` that returns has read an MBR sector with the boot
signature and returns the four slots chained in table order, each with the
result of its own call of `mbr_read_mbr_sub`. -/
theorem mbr_read_mbr_returns (fd : Image) (fuel : Nat) (t : mbr_partition)
    (h : mbr_read_mbr fd fuel = .returns t) :
    ∃ s0 s1 s2 s3 : mbr_partition, 512 ≤ fd.size ∧ magic_ok fd 0 ∧
      mbr_read_mbr_sub fd fuel (mbr_table_at fd 0) (mbr_slot_bytes fd 0) = .returns s0 ∧
      mbr_read_mbr_sub fd fuel (mbr_table_at fd 1) (mbr_slot_bytes fd 1) = .returns s1 ∧
      mbr_read_mbr_sub fd fuel (mbr_table_at fd 2) (mbr_slot_bytes fd 2) = .returns s2 ∧
      mbr_read_mbr_sub fd fuel (mbr_table_at fd 3) (mbr_slot_bytes fd 3) = .returns s3 ∧
      t = node (mbr_table_at fd 0) (mbr_slot_bytes fd 0) (mbr_slot_bytes fd 0)
            (node (mbr_table_at fd 1) (mbr_slot_bytes fd 1) (mbr_slot_bytes fd 1)
              (node (mbr_table_at fd 2) (mbr_slot_bytes fd 2) (mbr_slot_bytes fd 2)
                (node (mbr_table_at fd 3) (mbr_slot_bytes fd 3) (mbr_slot_bytes fd 3)
                  NULL s3 false)
                s2 false)
              s1 false)
            s0 false := by
  rw [mbr_read_mbr_unfold] at h
  by_cases hz : fd.size = 0
  · rw [if_pos hz] at h; cases h
  · rw [if_neg hz] at h
    by_cases hm : magic_ok fd 0
    · rw [if_neg (not_not.mpr hm)] at h
      obtain ⟨s0, h0, h⟩ := Outcome.bind_eq_returns h
      obtain ⟨s1, h1, h⟩ := Outcome.bind_eq_returns h
      obtain ⟨s2, h2, h⟩ := Outcome.bind_eq_returns h
      obtain ⟨s3, h3, h⟩ := Outcome.bind_eq_returns h
      simp only [Outcome.returns.injEq] at h
      have hin := magic_ok_inside fd 0 (le_refl _) hm
      exact ⟨s0, s1, s2, s3, by omega, hm, h0, h1, h2, h3, h.symm⟩
    · rw [if_pos hm] at h; cases h

/-- The MBR step of `mbr_read_mbr` on an image whose first sector lies inside
it and carries the boot signature. -/
theorem mbr_read_mbr_step (fd : Image) (fuel : Nat) (hsize : 512 ≤ fd.size)
    (hm : magic_ok fd 0) :
    mbr_read_mbr fd fuel =
      (mbr_read_mbr_sub fd fuel (mbr_table_at fd 0) (mbr_slot_bytes fd 0)).bind fun sub0 =>
      (mbr_read_mbr_sub fd fuel (mbr_table_at fd 1) (mbr_slot_bytes fd 1)).bind fun sub1 =>
      (mbr_read_mbr_sub fd fuel (mbr_table_at fd 2) (mbr_slot_bytes fd 2)).bind fun sub2 =>
      (mbr_read_mbr_sub fd fuel (mbr_table_at fd 3) (mbr_slot_bytes fd 3)).bind fun sub3 =>
      .returns
        (node (mbr_table_at fd 0) (mbr_slot_bytes fd 0) (mbr_slot_bytes fd 0)
          (node (mbr_table_at fd 1) (mbr_slot_bytes fd 1) (mbr_slot_bytes fd 1)
            (node (mbr_table_at fd 2) (mbr_slot_bytes fd 2) (mbr_slot_bytes fd 2)
              (node (mbr_table_at fd 3) (mbr_slot_bytes fd 3) (mbr_slot_bytes fd 3)
                NULL sub3 false)
              sub2 false)
            sub1 false)
          sub0 false) := by
  rw [mbr_read_mbr_unfold, if_neg (by omega), if_neg (not_not.mpr hm)]

theorem unmounted_node (n : mbr_partition) (h : unmounted n = true) :
    n.mounted = false ∧ unmounted n.next = true ∧ unmounted n.sub = true := by
  cases n with
  | NULL => exact ⟨rfl, rfl, rfl⟩
  | node t o l next sub m =>
    simp only [unmounted, Bool.and_eq_true, Bool.not_eq_true'] at h
    exact ⟨h.1.1, h.1.2, h.2⟩

theorem mbr_find_walk_unmounted (d : Nat) :
    ∀ (cur c : mbr_partition), unmounted cur = true →
      mbr_find_walk d cur = .returns (some c) → unmounted c = true := by
  induction d with
  | zero =>
    intro cur c hu h
    simp only [mbr_find_walk, Outcome.returns.injEq, Option.some.injEq] at h
    exact h ▸ hu
  | succ k ih =>
    intro cur c hu h
    cases cur with
    | NULL => simp [mbr_find_walk] at h
    | node t o l next sub m =>
      simp only [mbr_find_walk] at h
      split at h
      · exact ih next c (unmounted_node _ hu).2.1 h
      · simp at h

/-- The node `mbr_find_partition` returns from a tree with no `mounted` flag
set has none set either. -/
theorem mbr_find_loop_unmounted (fuel : Nat) :
    ∀ (cur : mbr_partition) (iter : List Char) (rest : Option (List Char))
      (r : mbr_partition × Option (List Char)), unmounted cur = true →
      mbr_find_loop fuel cur iter rest = .returns r → unmounted r.1 = true := by
  induction fuel with
  | zero => intro cur iter rest r _ h; simp [mbr_find_loop] at h
  | succ f ih =>
    intro cur iter rest r hu h
    rw [mbr_find_loop] at h
    split at h
    · simp only [Outcome.returns.injEq] at h; rw [← h]; rfl
    · split at h
      · simp only [Outcome.returns.injEq] at h; rw [← h]; rfl
      · next c hw =>
        have hc := mbr_find_walk_unmounted _ cur c hu hw
        split at h
        · simp only [Outcome.returns.injEq] at h; rw [← h]; exact hc
        · split at h
          · split at h
            · cases h
            · next t o l nx sub m =>
              split at h
              · simp only [Outcome.returns.injEq] at h; rw [← h]; rfl
              · exact ih _ _ _ r (unmounted_node _ hc).2.2 h
          · split at h
            · exact ih _ _ _ r hc h
            · simp only [Outcome.returns.injEq] at h; rw [← h]; rfl
      · cases h
      · cases h
      · cases h

theorem mbr_find_partition_unmounted (fuel : Nat) (data : mbr_data) (path : List Char)
    (n : mbr_partition) (rest : Option (List Char))
    (hu : unmounted data.primary = true)
    (h : mbr_find_partition fuel data path = .returns (n, rest)) :
    n.mounted = false := by
  unfold mbr_find_partition at h
  split at h
  · simp only [Outcome.returns.injEq, Prod.mk.injEq] at h; rw [← h.1]; rfl
  · exact (unmounted_node n (mbr_find_loop_unmounted fuel _ _ _ (n, rest) hu h)).1

/-- Every tree `mbr_read_ebr` returns has no `mounted` flag set. -/
theorem mbr_read_ebr_unmounted (fd : Image) (fuel : Nat) :
    ∀ (offset : Int) (t : mbr_partition),
      mbr_read_ebr fd fuel offset = .returns t → unmounted t = true := by
  induction fuel with
  | zero => intro offset t h; simp [mbr_read_ebr] at h
  | succ f ih =>
    intro offset t h
    obtain ⟨f1, s, nx, hf, _, hA, hB, ht⟩ := mbr_read_ebr_returns fd _ offset t h
    have hf1 : f1 = f := by omega
    subst hf1
    have hsub : ∀ (c : Prop) [Decidable c] (o : Int) (s : mbr_partition),
        (if c then mbr_read_ebr fd f1 o else .returns NULL) = .returns s →
        unmounted s = true := by
      intro c _ o s hs
      split at hs
      · exact ih o s hs
      · simp only [Outcome.returns.injEq] at hs; rw [← hs]; rfl
    rw [ht]
    simp [unmounted, hsub _ _ _ hA, hsub _ _ _ hB]

/-- Every tree `mbr_read_mbr` returns has no `mounted` flag set. -/
theorem mbr_read_mbr_unmounted (fd : Image) (fuel : Nat) (t : mbr_partition)
    (h : mbr_read_mbr fd fuel = .returns t) : unmounted t = true := by
  have hsub : ∀ (table : mbr_table) (o : Int) (s : mbr_partition),
      mbr_read_mbr_sub fd fuel table o = .returns s → unmounted s = true := by
    intro table o s hs
    unfold mbr_read_mbr_sub at hs
    split at hs
    · exact mbr_read_ebr_unmounted fd fuel o s hs
    · simp only [Outcome.returns.injEq] at hs; rw [← hs]; rfl
  obtain ⟨s0, s1, s2, s3, _, _, h0, h1, h2, h3, ht⟩ := mbr_read_mbr_returns fd fuel t h
  rw [ht]
  simp [unmounted, hsub _ _ _ h0, hsub _ _ _ h1, hsub _ _ _ h2, hsub _ _ _ h3]

/-! ## Sectors read by the table reader -/

theorem mem_reads_after {α : Type} (out : Outcome α) (l : List Int) (off : Int)
    (h : off ∈ reads_after out l) : (∃ a, out = .returns a) ∧ off ∈ l := by
  cases out with
  | returns a => exact ⟨⟨a, rfl⟩, h⟩
  | exits c => simp [reads_after] at h
  | crashes => simp [reads_after] at h
  | loops => simp [reads_after] at h

/-- A sector without the boot signature among those `mbr_read_ebr` reads ends
the process with `exit (2)`. -/
theorem mbr_read_ebr_wrong_magic (fd : Image) (off : Int) (hbad : ¬ magic_ok fd off) :
    ∀ (fuel : Nat) (offset : Int), off ∈ mbr_read_ebr_reads fd fuel offset →
      mbr_read_ebr fd fuel offset = .exits 2 := by
  intro fuel
  induction fuel with
  | zero => intro offset h; simp [mbr_read_ebr_reads] at h
  | succ f ih =>
    intro offset h
    rw [mbr_read_ebr_reads_unfold] at h
    rw [mbr_read_ebr_unfold]
    by_cases hs : sector_mapped fd offset
    · rw [if_neg (not_not.mpr hs)] at h ⊢
      by_cases hgood : magic_ok fd offset
      · rw [if_neg (not_not.mpr hgood)] at h ⊢
        simp only [List.mem_cons, List.mem_append] at h
        rcases h with rfl | hsub | hnext
        · exact absurd hgood hbad
        · by_cases hext : is_extended (ebr_table fd offset).type
          · rw [if_pos hext] at hsub ⊢
            rw [ih _ hsub]; rfl
          · rw [if_neg hext] at hsub; simp at hsub
        · obtain ⟨⟨s, hs1⟩, hmem⟩ := mem_reads_after _ _ _ hnext
          rw [hs1]
          by_cases hin : ebr_link fd offset ≠ 0
          · rw [if_pos hin] at hmem ⊢
            rw [ih _ hmem]; rfl
          · rw [if_neg hin] at hmem; simp at hmem
      · rw [if_pos hgood]
    · rw [if_pos hs] at h; simp at h

theorem mbr_read_mbr_sub_wrong_magic (fd : Image) (off : Int) (hbad : ¬ magic_ok fd off)
    (fuel : Nat) (table : mbr_table) (offset : Int)
    (h : off ∈ mbr_read_mbr_sub_reads fd fuel table offset) :
    mbr_read_mbr_sub fd fuel table offset = .exits 2 := by
  unfold mbr_read_mbr_sub_reads at h
  unfold mbr_read_mbr_sub
  by_cases hext : table.type = 0x05 ∨ table.type = 0x0f
  · rw [if_pos hext] at h ⊢
    exact mbr_read_ebr_wrong_magic fd off hbad fuel offset h
  · rw [if_neg hext] at h
    cases h

/-! ## The tail of `mbr_read` -/

theorem listing_unfold (pfx : List Char) (part : mbr_partition) :
    listing pfx part =
      (List.range (chain part).length).flatMap fun i =>
        match (chain part)[i]? with
        | none => []
        | some n =>
          if n.sub ≠ NULL then
            listing (pfx ++ (Nat.repr i).toList ++ ['.']) n.sub
              ++ [pfx ++ (Nat.repr i).toList ++ ['.']]
          else if n.table.type ≠ 0x00 then [pfx ++ (Nat.repr i).toList]
          else [] := by
  rw [listing]
  congr 1
  funext i
  split
  · next h => rw [h]
  · next n h => rw [h]

/-- Reading a list through its positions is reading its enumeration. -/
theorem range_flatMap_getElem {α β : Type} (g : Nat → α → List β) (l : List α) :
    ∀ k : Nat,
      ((List.range l.length).flatMap fun i =>
        match l[i]? with
        | none => []
        | some a => g (k + i) a)
      = (l.enumFrom k).flatMap fun p => g p.1 p.2 := by
  induction l with
  | nil => intro k; simp
  | cons a as ih =>
    intro k
    rw [List.length_cons, List.range_succ_eq_map, List.flatMap_cons, List.enumFrom_cons,
      List.flatMap_cons, ← ih (k + 1), List.flatMap_map]
    simp only [List.getElem?_cons_zero, Nat.add_zero, List.getElem?_cons_succ]
    congr 1
    congr 1
    funext i
    have : k + 1 + i = k + (i + 1) := by omega
    rw [this]

/-- The names one chain walk of `mbr_readdir_rec` hands to `filler`, node by
node. -/
theorem mbr_readdir_rec_enum (part : mbr_partition) :
    ∀ (pfx : List Char) (k : Nat),
      mbr_readdir_rec pfx part k =
        ((chain part).enumFrom k).flatMap fun p =>
          if p.2.sub ≠ NULL then
            mbr_readdir_rec (pfx ++ (Nat.repr p.1).toList ++ ['.']) p.2.sub 0
              ++ [pfx ++ (Nat.repr p.1).toList ++ ['.']]
          else if p.2.table.type ≠ 0x00 then [pfx ++ (Nat.repr p.1).toList]
          else [] := by
  induction part with
  | NULL => intro pfx k; simp [mbr_readdir_rec, chain]
  | node t o l next sub m ihn _ =>
    intro pfx k
    rw [mbr_readdir_rec, chain, List.enumFrom_cons, List.flatMap_cons, ← ihn pfx (k + 1)]
    rfl

/-- The listing of the specification is what `mbr_readdir_rec` produces. -/
theorem listing_eq_mbr_readdir_rec (s : Nat) :
    ∀ (part : mbr_partition) (pfx : List Char), tree_size part ≤ s →
      listing pfx part = mbr_readdir_rec pfx part 0 := by
  induction s with
  | zero =>
    intro part pfx hs
    cases part with
    | NULL => rw [listing_unfold]; simp [chain, mbr_readdir_rec]
    | node t o l next sub m => simp only [tree_size] at hs; omega
  | succ s ih =>
    intro part pfx hs
    rw [listing_unfold, mbr_readdir_rec_enum part pfx 0,
      ← range_flatMap_getElem (fun i n =>
        if n.sub ≠ NULL then
          mbr_readdir_rec (pfx ++ (Nat.repr i).toList ++ ['.']) n.sub 0
            ++ [pfx ++ (Nat.repr i).toList ++ ['.']]
        else if n.table.type ≠ 0x00 then [pfx ++ (Nat.repr i).toList]
        else []) (chain part) 0]
    congr 1
    funext i
    cases hget : (chain part)[i]? with
    | none => rfl
    | some n =>
      obtain ⟨hn, hle⟩ := chain_getElem part i n hget
      have hlt := tree_size_sub_lt n hn
      simp only [Nat.zero_add]
      rw [ih n.sub _ (by omega)]

/-! ## The fixture -/

/-- The fixture tree is what `mbr_read_mbr` returns on the fixture image. -/
theorem mbr_read_mbr_fixture : mbr_read_mbr fixture_image 2 = .returns fixture_tree := by
  decide

/-- The big fixture tree is what `mbr_read_mbr` returns on the big image. -/
theorem mbr_read_mbr_fixture_big :
    mbr_read_mbr fixture_big_image 0 = .returns fixture_big_tree := by
  decide

/-! ## Decimal rendering of a position (`%d`) -/

/-- The value of a digit text read from an accumulator. -/
theorem decval_foldl (ds : List Char) :
    ∀ a : Nat, ds.foldl (fun a c => 10 * a + (c.toNat - 48)) a
      = a * 10 ^ ds.length + decval ds := by
  induction ds with
  | nil => intro a; simp [decval]
  | cons c cs ih =>
    intro a
    simp only [List.foldl_cons, List.length_cons, decval]
    rw [ih (10 * a + (c.toNat - 48)), ih (10 * 0 + (c.toNat - 48))]
    ring

theorem digitChar_digit (m : Nat) (h : m < 10) :
    isdigit (Nat.digitChar m) = true ∧ (Nat.digitChar m).toNat - 48 = m := by
  interval_cases m <;> exact ⟨by decide, by decide⟩

/-- The digits `Nat.toDigitsCore` puts in front of an accumulator are decimal
digits, at least one, and they denote the number. -/
theorem toDigitsCore_decimal (fuel : Nat) :
    ∀ (n : Nat) (ds : List Char), n < fuel → (∀ c ∈ ds, isdigit c = true) →
      (∀ c ∈ Nat.toDigitsCore 10 fuel n ds, isdigit c = true) ∧
      Nat.toDigitsCore 10 fuel n ds ≠ [] ∧
      decval (Nat.toDigitsCore 10 fuel n ds) = n * 10 ^ ds.length + decval ds := by
  induction fuel with
  | zero => intro n ds h; omega
  | succ f ih =>
    intro n ds hn hds
    obtain ⟨hd1, hd2⟩ := digitChar_digit (n % 10) (Nat.mod_lt _ (by decide))
    have hcons : ∀ c ∈ Nat.digitChar (n % 10) :: ds, isdigit c = true := by
      intro c hc
      rcases List.mem_cons.mp hc with rfl | hc
      · exact hd1
      · exact hds c hc
    have hval : decval (Nat.digitChar (n % 10) :: ds) = (n % 10) * 10 ^ ds.length + decval ds := by
      simp only [decval, List.foldl_cons]
      rw [decval_foldl ds, hd2]
      simp [decval]
    simp only [Nat.toDigitsCore]
    by_cases h0 : n / 10 = 0
    · rw [if_pos h0]
      refine ⟨hcons, by simp, ?_⟩
      rw [hval]
      have : n % 10 = n := by omega
      rw [this]
    · rw [if_neg h0]
      obtain ⟨h1, h2, h3⟩ := ih (n / 10) (Nat.digitChar (n % 10) :: ds) (by omega) hcons
      refine ⟨h1, h2, ?_⟩
      rw [h3, hval, List.length_cons, pow_succ]
      have e : n * 10 ^ ds.length = (10 * (n / 10) + n % 10) * 10 ^ ds.length := by
        rw [Nat.div_add_mod n 10]
      rw [e]
      ring

/-- The decimal form of a position is a run of digits that denotes it. -/
theorem repr_index (n : Nat) :
    is_index (Nat.repr n).toList ∧ decval (Nat.repr n).toList = n := by
  have h := toDigitsCore_decimal (n + 1) n [] (by omega) (by simp)
  have hr : (Nat.repr n).toList = Nat.toDigitsCore 10 (n + 1) n [] := rfl
  rw [hr]
  refine ⟨⟨h.2.1, h.1⟩, ?_⟩
  rw [h.2.2]
  simp [decval]

/-! ## What the table reader returns -/

/-- What `mbr_read_ebr` returns is a node, and in every node of it the `sub`
pointer is set exactly for an extended type. -/
theorem mbr_read_ebr_nodes (fd : Image) (fuel : Nat) :
    ∀ (off : Int) (t : mbr_partition), mbr_read_ebr fd fuel off = .returns t →
      t ≠ NULL ∧ ∀ n ∈ nodes t, (n.sub ≠ NULL ↔ is_extended n.table.type) := by
  induction fuel with
  | zero => intro off t h; simp [mbr_read_ebr] at h
  | succ f ih =>
    intro off t h
    obtain ⟨f1, sub, next, hf, _, hs, hn, ht⟩ := mbr_read_ebr_returns fd _ off t h
    have hf1 : f1 = f := by omega
    subst hf1
    subst ht
    have hsub : (sub ≠ NULL ↔ is_extended (ebr_table fd off).type) ∧
        ∀ n ∈ nodes sub, (n.sub ≠ NULL ↔ is_extended n.table.type) := by
      by_cases hext : is_extended (ebr_table fd off).type
      · rw [if_pos hext] at hs
        obtain ⟨h1, h2⟩ := ih _ sub hs
        exact ⟨⟨fun _ => hext, fun _ => h1⟩, h2⟩
      · rw [if_neg hext] at hs
        simp only [Outcome.returns.injEq] at hs
        subst hs
        exact ⟨⟨fun hc => absurd rfl hc, fun hc => absurd hc hext⟩, by simp [nodes]⟩
    have hnext : ∀ n ∈ nodes next, (n.sub ≠ NULL ↔ is_extended n.table.type) := by
      by_cases hl : ebr_link fd off ≠ 0
      · rw [if_pos hl] at hn
        exact (ih _ next hn).2
      · rw [if_neg hl] at hn
        simp only [Outcome.returns.injEq] at hn
        subst hn
        simp [nodes]
    refine ⟨by simp, ?_⟩
    intro n hmem
    simp only [nodes, List.mem_cons, List.mem_append] at hmem
    rcases hmem with rfl | hmem | hmem
    · exact hsub.1
    · exact hsub.2 n hmem
    · exact hnext n hmem

theorem mbr_read_mbr_sub_nodes (fd : Image) (fuel : Nat) (table : mbr_table) (off : Int)
    (s : mbr_partition) (h : mbr_read_mbr_sub fd fuel table off = .returns s) :
    (s ≠ NULL ↔ is_extended table.type) ∧
      ∀ n ∈ nodes s, (n.sub ≠ NULL ↔ is_extended n.table.type) := by
  unfold mbr_read_mbr_sub at h
  by_cases hext : is_extended table.type
  · have hext1 : table.type = 0x05 ∨ table.type = 0x0f := hext
    rw [if_pos hext1] at h
    obtain ⟨h1, h2⟩ := mbr_read_ebr_nodes fd fuel off s h
    exact ⟨⟨fun _ => hext, fun _ => h1⟩, h2⟩
  · have hext1 : ¬ (table.type = 0x05 ∨ table.type = 0x0f) := hext
    rw [if_neg hext1] at h
    simp only [Outcome.returns.injEq] at h
    subst h
    exact ⟨⟨fun hc => absurd rfl hc, fun hc => absurd hc hext⟩, by simp [nodes]⟩

/-! ## Nodes of a tree -/

theorem chain_mem (cur : mbr_partition) :
    ∀ m ∈ chain cur, m ≠ NULL ∧ tree_size m ≤ tree_size cur := by
  intro m hm
  obtain ⟨i, hi⟩ := List.getElem?_of_mem hm
  exact chain_getElem cur i m hi

/-- The nodes of a chain are pairwise distinct. -/
theorem chain_nodup (cur : mbr_partition) : (chain cur).Nodup := by
  induction cur with
  | NULL => simp [chain]
  | node t o l next sub m ihn _ =>
    simp only [chain, List.nodup_cons]
    refine ⟨?_, ihn⟩
    intro hmem
    have := (chain_mem next _ hmem).2
    simp only [tree_size] at this
    omega

theorem nodes_self (n : mbr_partition) (h : n ≠ NULL) : n ∈ nodes n := by
  cases n with
  | NULL => exact absurd rfl h
  | node t o l next sub m => simp [nodes]

/-- The nodes of a node of a tree are nodes of the tree. -/
theorem nodes_trans (cur : mbr_partition) :
    ∀ c ∈ nodes cur, ∀ n ∈ nodes c, n ∈ nodes cur := by
  induction cur with
  | NULL => intro c hc; simp [nodes] at hc
  | node t o l next sub m ihn ihs =>
    intro c hc n hn
    simp only [nodes, List.mem_cons, List.mem_append] at hc
    rcases hc with rfl | hc | hc
    · exact hn
    · have := ihs c hc n hn
      simp only [nodes, List.mem_cons, List.mem_append]
      exact Or.inr (Or.inl this)
    · have := ihn c hc n hn
      simp only [nodes, List.mem_cons, List.mem_append]
      exact Or.inr (Or.inr this)

theorem nodes_next (n : mbr_partition) : ∀ c ∈ nodes n.next, c ∈ nodes n := by
  cases n with
  | NULL => intro c hc; simp [mbr_partition.next, nodes] at hc
  | node t o l next sub m =>
    intro c hc
    simp only [nodes, List.mem_cons, List.mem_append]
    exact Or.inr (Or.inr hc)

theorem nodes_sub (n : mbr_partition) : ∀ c ∈ nodes n.sub, c ∈ nodes n := by
  cases n with
  | NULL => intro c hc; simp [mbr_partition.sub, nodes] at hc
  | node t o l next sub m =>
    intro c hc
    simp only [nodes, List.mem_cons, List.mem_append]
    exact Or.inr (Or.inl hc)

/-- The nodes of a chain are nodes of the tree. -/
theorem chain_subset_nodes (cur : mbr_partition) : ∀ m ∈ chain cur, m ∈ nodes cur := by
  induction cur with
  | NULL => intro m hm; simp [chain] at hm
  | node t o l next sub mo ihn _ =>
    intro m hm
    simp only [chain, List.mem_cons] at hm
    rcases hm with rfl | hm
    · simp [nodes]
    · simp only [nodes, List.mem_cons, List.mem_append]
      exact Or.inr (Or.inr (ihn m hm))

/-- The node `mbr_find_partition` returns is `NULL` or a node of the tree. -/
theorem mbr_find_loop_mem_nodes (fuel : Nat) :
    ∀ (cur : mbr_partition) (iter : List Char) (rest : Option (List Char))
      (r : mbr_partition × Option (List Char)), cur ≠ NULL →
      mbr_find_loop fuel cur iter rest = .returns r → r.1 = NULL ∨ r.1 ∈ nodes cur := by
  induction fuel with
  | zero => intro cur iter rest r _ h; simp [mbr_find_loop] at h
  | succ f ih =>
    intro cur iter rest r hcur h
    rw [mbr_find_loop] at h
    split at h
    · simp only [Outcome.returns.injEq] at h; rw [← h]; exact Or.inl rfl
    · rw [mbr_find_walk_chain _ cur hcur] at h
      split at h
      · simp only [Outcome.returns.injEq] at h; rw [← h]; exact Or.inl rfl
      · next c hw =>
        simp only [Outcome.returns.injEq] at hw
        have hcn : c ≠ NULL ∧ c ∈ nodes cur := by
          have hmem := List.getElem?_mem hw
          exact ⟨(chain_mem cur c hmem).1, chain_subset_nodes cur c hmem⟩
        split at h
        · simp only [Outcome.returns.injEq] at h; rw [← h]; exact Or.inr hcn.2
        · split at h
          · split at h
            · cases h
            · next t o l nx sub m =>
              split at h
              · simp only [Outcome.returns.injEq] at h; rw [← h]; exact Or.inl rfl
              · next hsub =>
                rcases ih sub _ _ r hsub h with h1 | h1
                · exact Or.inl h1
                · exact Or.inr (nodes_trans cur _ hcn.2 _ (nodes_sub _ _ h1))
          · split at h
            · rcases ih c _ _ r hcn.1 h with h1 | h1
              · exact Or.inl h1
              · exact Or.inr (nodes_trans cur c hcn.2 _ h1)
            · simp only [Outcome.returns.injEq] at h; rw [← h]; exact Or.inl rfl
      · cases h
      · cases h
      · cases h

/-- The clamp of `strtoll` does not show on a chain of fewer than `2^63`
nodes. -/
theorem chain_getElem_index_steps_short (ds : List Char) (cur : mbr_partition)
    (hlen : (chain cur).length < 9223372036854775808) :
    (chain cur)[index_steps ds]? = (chain cur)[decval ds]? := by
  unfold index_steps
  by_cases hv : (decval ds : Int) ≤ LLONG_MAX
  · rw [min_eq_left hv]; simp
  · rw [min_eq_right (by omega)]
    have h1 : (chain cur)[LLONG_MAX.toNat]? = none := by
      apply List.getElem?_eq_none
      simp only [LLONG_MAX]; omega
    have h2 : (chain cur)[decval ds]? = none := by
      apply List.getElem?_eq_none
      simp only [LLONG_MAX] at hv; omega
    rw [h1, h2]

/-- A path `/mbr<i>` resolves to the node at position `i` of the primary
chain, within one round of the loop. -/
theorem mbr_find_partition_position (fuel : Nat) (data : mbr_data) (i : Nat)
    (hp : data.primary ≠ NULL) (hlen : (chain data.primary).length < 9223372036854775808) :
    mbr_find_partition (fuel + 1) data (mbr_path (Nat.repr i).toList)
      = .returns (((chain data.primary)[i]?).getD NULL, none) := by
  obtain ⟨hidx, hval⟩ := repr_index i
  have htxt : (Nat.repr i).toList = (Nat.repr i).toList ++ [] := by simp
  rw [mbr_find_partition_mbr_path, htxt,
    mbr_find_loop_index fuel _ _ [] none hidx hp stops_index_nil,
    chain_getElem_index_steps_short _ _ hlen, hval]
  cases (chain data.primary)[i]? <;> rfl

theorem le32_lt (v : Nat → Nat) (i : Nat) (hv : ∀ j, v j < 256) :
    le32 v i < 4294967296 := by
  unfold le32
  have h0 := hv i
  have h1 := hv (i + 1)
  have h2 := hv (i + 2)
  have h3 := hv (i + 3)
  omega

theorem sector_lt (fd : Image) (off : Int) (j : Nat) : sector fd off j < 256 := by
  unfold sector
  split
  · exact Nat.mod_lt _ (by decide)
  · decide

/-! ## The slash branch of `mbr_find_partition` -/

/-- Once the loop of `mbr_find_partition` has stored a suffix, it parses the
same index again in every round, so it can only leave through `return NULL`:
a returned pointer that comes with a suffix is `NULL`. -/
theorem mbr_find_loop_suffix_null (fuel : Nat) :
    ∀ (cur : mbr_partition) (iter : List Char) (rest : Option (List Char))
      (r : mbr_partition × Option (List Char)),
      (rest ≠ none → ∃ t, (strtoll iter).2 = '/' :: t) →
      mbr_find_loop fuel cur iter rest = .returns r → r.2 ≠ none → r.1 = NULL := by
  induction fuel with
  | zero => intro cur iter rest r _ h; simp [mbr_find_loop] at h
  | succ f ih =>
    intro cur iter rest r hinv h hr
    rw [mbr_find_loop] at h
    split at h
    · simp only [Outcome.returns.injEq] at h; rw [← h]
    · split at h
      · simp only [Outcome.returns.injEq] at h; rw [← h]
      · next c hw =>
        split at h
        · next htmp =>
          simp only [Outcome.returns.injEq] at h
          rw [← h] at hr
          obtain ⟨t, ht⟩ := hinv hr
          rw [htmp] at ht
          cases ht
        · next c1 tmp1 htmp =>
          split at h
          · next hdot =>
            have hrest : rest = none := by
              by_contra hne
              obtain ⟨t, ht⟩ := hinv hne
              rw [htmp] at ht
              simp only [List.cons.injEq] at ht
              rw [hdot] at ht
              exact absurd ht.1 (by decide)
            split at h
            · cases h
            · split at h
              · simp only [Outcome.returns.injEq] at h; rw [← h]
              · exact ih _ _ _ r (fun hne => absurd hrest hne) h hr
          · split at h
            · next hslash =>
              refine ih _ _ _ r (fun _ => ⟨tmp1, ?_⟩) h hr
              rw [htmp, hslash]
            · simp only [Outcome.returns.injEq] at h; rw [← h]
      · cases h
      · cases h
      · cases h

/-! ## Names of the listing -/

/-- The position can be read back from a name. -/
theorem name_at_unique (pfx : List Char) (i j : Nat) (name : List Char)
    (hi : name_at pfx i name) (hj : name_at pfx j name) : i = j := by
  obtain ⟨t1, h1, s1⟩ := hi
  obtain ⟨t2, h2, s2⟩ := hj
  rw [h1, List.append_assoc, List.append_assoc] at h2
  have h := List.append_cancel_left h2
  have e1 : ((Nat.repr i).toList ++ t1).takeWhile isdigit = (Nat.repr i).toList := by
    rw [List.takeWhile_append_of_pos (repr_index i).1.2, (takeWhile_isdigit_stops t1 s1).1]
    simp
  have e2 : ((Nat.repr j).toList ++ t2).takeWhile isdigit = (Nat.repr j).toList := by
    rw [List.takeWhile_append_of_pos (repr_index j).1.2, (takeWhile_isdigit_stops t2 s2).1]
    simp
  rw [h, e2] at e1
  have := congrArg decval e1
  rw [(repr_index i).2, (repr_index j).2] at this
  exact this.symm

/-- Every name of one chain walk of `mbr_readdir_rec` carries a position of the
chain, from the start value of the counter on. -/
theorem mbr_readdir_rec_name_at (part : mbr_partition) :
    ∀ (pfx : List Char) (k : Nat) (name : List Char), name ∈ mbr_readdir_rec pfx part k →
      ∃ i, k ≤ i ∧ name_at pfx i name := by
  induction part with
  | NULL => intro pfx k name h; simp [mbr_readdir_rec] at h
  | node t o l next sub m ihn ihs =>
    intro pfx k name h
    rw [mbr_readdir_rec] at h
    rcases List.mem_append.mp h with h | h
    · refine ⟨k, le_refl _, ?_⟩
      split at h
      · rcases List.mem_append.mp h with h | h
        · obtain ⟨j, _, t1, h1, _⟩ := ihs _ 0 name h
          refine ⟨'.' :: ((Nat.repr j).toList ++ t1), ?_, stops_index_dot _⟩
          rw [h1]; simp
        · simp only [List.mem_singleton] at h
          exact ⟨['.'], h, stops_index_dot _⟩
      · split at h
        · simp only [List.mem_singleton] at h
          exact ⟨[], by simpa using h, stops_index_nil⟩
        · simp at h
    · obtain ⟨i, hi, hn⟩ := ihn pfx (k + 1) name h
      exact ⟨i, by omega, hn⟩

/-- The names `mbr_readdir_rec` hands to `filler` are pairwise distinct. -/
theorem mbr_readdir_rec_nodup (part : mbr_partition) :
    ∀ (pfx : List Char) (k : Nat), (mbr_readdir_rec pfx part k).Nodup := by
  induction part with
  | NULL => intro pfx k; simp [mbr_readdir_rec]
  | node t o l next sub m ihn ihs =>
    intro pfx k
    have hhere : ∀ name ∈
        (if sub ≠ NULL then
            mbr_readdir_rec (pfx ++ (Nat.repr k).toList ++ ['.']) sub 0
              ++ [pfx ++ (Nat.repr k).toList ++ ['.']]
          else if t.type ≠ 0x00 then [pfx ++ (Nat.repr k).toList]
          else []), name_at pfx k name := by
      intro name h
      split at h
      · rcases List.mem_append.mp h with h | h
        · obtain ⟨j, _, t1, h1, _⟩ := mbr_readdir_rec_name_at sub _ 0 name h
          refine ⟨'.' :: ((Nat.repr j).toList ++ t1), ?_, stops_index_dot _⟩
          rw [h1]; simp
        · simp only [List.mem_singleton] at h
          exact ⟨['.'], h, stops_index_dot _⟩
      · split at h
        · simp only [List.mem_singleton] at h
          exact ⟨[], by simpa using h, stops_index_nil⟩
        · simp at h
    rw [mbr_readdir_rec, List.nodup_append]
    refine ⟨?_, ihn pfx (k + 1), ?_⟩
    · split
      · rw [List.nodup_append]
        refine ⟨ihs _ 0, by simp, ?_⟩
        intro name h1 h2
        simp only [List.mem_singleton] at h2
        obtain ⟨j, _, t1, h3, _⟩ := mbr_readdir_rec_name_at sub _ 0 name h1
        rw [h2] at h3
        have hlen := congrArg List.length h3
        have hpos : 0 < (Nat.repr j).toList.length :=
          List.length_pos.mpr (repr_index j).1.1
        simp only [List.length_append] at hlen
        omega
      · split
        · simp
        · simp
    · intro name h1 h2
      obtain ⟨i, hi, hn⟩ := mbr_readdir_rec_name_at next pfx (k + 1) name h2
      have := name_at_unique pfx k i name (hhere name h1) hn
      omega

/-- At each node `mbr_readdir_rec` hands one name to `filler` when the node
has a `sub` or a type other than 0x00, and none otherwise. -/
theorem mbr_readdir_rec_length (part : mbr_partition) :
    ∀ (pfx : List Char) (k : Nat),
      (mbr_readdir_rec pfx part k).length = named_count part := by
  induction part with
  | NULL => intro pfx k; simp [mbr_readdir_rec, named_count, nodes]
  | node t o l next sub m ihn ihs =>
    intro pfx k
    have hn := ihn pfx (k + 1)
    have hcount : named_count (node t o l next sub m)
        = (if is_named (node t o l next sub m) then 1 else 0)
          + named_count sub + named_count next := by
      simp only [named_count, nodes, List.filter_cons, List.filter_append]
      split <;> simp only [List.length_cons, List.length_append] <;> omega
    rw [mbr_readdir_rec, List.length_append, hn, hcount]
    by_cases hs : sub = NULL
    · subst hs
      by_cases ht : t.type = 0
      · simp [is_named, ht, named_count, nodes, mbr_partition.sub, mbr_partition.table]
      · simp [is_named, ht, named_count, nodes, mbr_partition.sub, mbr_partition.table]
    · rw [if_pos hs, List.length_append, ihs _ 0]
      simp [is_named, hs, mbr_partition.sub]
      omega

/-- The names of the node at position `i` of a chain are among the names of
the chain walk. -/
theorem mbr_readdir_rec_mem_of_chain (part : mbr_partition) (pfx : List Char) (k i : Nat)
    (n : mbr_partition) (name : List Char) (hget : (chain part)[i]? = some n)
    (h : name ∈
      (if n.sub ≠ NULL then
          mbr_readdir_rec (pfx ++ (Nat.repr (k + i)).toList ++ ['.']) n.sub 0
            ++ [pfx ++ (Nat.repr (k + i)).toList ++ ['.']]
        else if n.table.type ≠ 0x00 then [pfx ++ (Nat.repr (k + i)).toList]
        else [])) :
    name ∈ mbr_readdir_rec pfx part k := by
  rw [mbr_readdir_rec_enum part pfx k, List.mem_flatMap]
  exact ⟨(k + i, n), List.mk_add_mem_enumFrom_iff_getElem?.mpr hget, h⟩

/-- A member of a list with no element twice occurs in it exactly once. -/
theorem countP_eq_one_of_nodup (l : List (List Char)) (a : List Char) (hd : l.Nodup)
    (hm : a ∈ l) : l.countP (fun s => decide (s = a)) = 1 := by
  induction l with
  | nil => simp at hm
  | cons x xs ih =>
    rw [List.nodup_cons] at hd
    by_cases hx : x = a
    · subst hx
      have h0 : xs.countP (fun s => decide (s = x)) = 0 := by
        rw [List.countP_eq_zero]
        intro s hs
        simp only [decide_eq_true_eq]
        rintro rfl
        exact hd.1 hs
      rw [List.countP_cons_of_pos _ _ (by simp), h0]
    · rw [List.countP_cons_of_neg _ _ (by simpa using hx)]
      rcases List.mem_cons.mp hm with h | h
      · exact absurd h.symm hx
      · exact ih hd.2 h

/-- The name of a node that gets one is among the names of the listing. -/
theorem node_name_mem (p : List Nat) :
    ∀ (part : mbr_partition) (pfx : List Char) (n : mbr_partition),
      resolve part p = some n → is_named n = true →
      node_name pfx p n ∈ mbr_readdir_rec pfx part 0 := by
  induction p with
  | nil => intro part pfx n h; simp [resolve] at h
  | cons i js ih =>
    intro part pfx n h hnamed
    cases js with
    | nil =>
      simp only [resolve] at h
      apply mbr_readdir_rec_mem_of_chain part pfx 0 i n _ h
      simp only [Nat.zero_add, node_name, List.map, dotted]
      simp only [is_named, decide_eq_true_eq] at hnamed
      by_cases hs : n.sub ≠ NULL
      · simp [hs]
      · rcases hnamed with hn | hn
        · exact absurd hn hs
        · simp [hs, hn]
    | cons j js1 =>
      simp only [resolve] at h
      cases hget : (chain part)[i]? with
      | none => rw [hget] at h; cases h
      | some m =>
        rw [hget] at h
        by_cases hs : m.sub = NULL
        · simp [hs] at h
        · simp only [hs, if_false] at h
          have hmem := ih m.sub (pfx ++ (Nat.repr i).toList ++ ['.']) n h hnamed
          apply mbr_readdir_rec_mem_of_chain part pfx 0 i m _ hget
          simp only [Nat.zero_add]
          rw [if_pos hs]
          apply List.mem_append_left
          have hname : node_name pfx (i :: j :: js1) n
              = node_name (pfx ++ (Nat.repr i).toList ++ ['.']) (j :: js1) n := by
            simp [node_name, dotted]
          rw [hname]
          exact hmem

/-- Every node of a tree is reached by a list of positions. -/
theorem nodes_resolve (part : mbr_partition) :
    ∀ n ∈ nodes part, ∃ p, resolve part p = some n := by
  induction part with
  | NULL => intro n hn; simp [nodes] at hn
  | node t o l next sub m ihn ihs =>
    intro n hn
    simp only [nodes, List.mem_cons, List.mem_append] at hn
    rcases hn with rfl | hn | hn
    · exact ⟨[0], by simp [resolve, chain]⟩
    · obtain ⟨p, hp⟩ := ihs n hn
      have hsub : sub ≠ NULL := by
        intro hs; subst hs; simp [nodes] at hn
      cases p with
      | nil => simp [resolve] at hp
      | cons j js =>
        refine ⟨0 :: j :: js, ?_⟩
        simp [resolve, chain, mbr_partition.sub, hsub, hp]
    · obtain ⟨p, hp⟩ := ihn n hn
      cases p with
      | nil => simp [resolve] at hp
      | cons i js =>
        refine ⟨(i + 1) :: js, ?_⟩
        cases js with
        | nil =>
          simp only [resolve] at hp ⊢
          simpa [chain] using hp
        | cons j js1 =>
          simp only [resolve] at hp ⊢
          simpa [chain] using hp

/-! ## Names of the listing as paths -/

theorem dotted_append_dot (idxs : List (List Char)) (h : idxs ≠ []) :
    dotted idxs ++ ['.'] = dotted_before idxs := by
  induction idxs with
  | nil => exact absurd rfl h
  | cons i js ih =>
    cases js with
    | nil => simp [dotted, dotted_before]
    | cons j js1 =>
      have := ih (by simp)
      simp only [dotted, dotted_before, List.append_assoc, List.cons_append] at this ⊢
      rw [this]

theorem map_repr_index (p : List Nat) :
    (∀ ds ∈ p.map (fun i => (Nat.repr i).toList), is_index ds) ∧
      (p.map (fun i => (Nat.repr i).toList)).map decval = p := by
  constructor
  · intro ds hds
    obtain ⟨i, _, rfl⟩ := List.mem_map.mp hds
    exact (repr_index i).1
  · induction p with
    | nil => rfl
    | cons i js ih => simp only [List.map_cons, (repr_index i).2, ih]

/-! ## The handlers on one resolved path -/

/-- C1 (the code departs from the claim): on an MBR sector with the boot
signature whose slot 0 has type 0x83, start sector 1 and length 2 sectors,
`mbr_read_mbr` returns a chain in which the node that `/mbr0` resolves to has
length 2 * 512 but offset 2 * 512, the length field times 512, and not the
start sector times 512 = 512. -/
theorem mbr_read_mbr_offset_from_length_field :
    ((mbr_read_mbr fixture_mbr_image 0).bind fun p =>
      (mbr_find_partition 1 ⟨fixture_mbr_image, 0, p⟩ "/mbr0".toList).map fun r =>
        (r.1.table.offset, r.1.table.length, r.1.offset, r.1.length))
      = .returns (1, 2, 1024, 1024) := by
  decide

/-- C2 (the code departs from the claim): `/mbr1` of the fixture resolves to a
node at byte offset 512; a read of 2 bytes at offset 0 returns 2 and fills the
buffer (holding 7 before the call) with the image bytes at positions 0 and 1
(both 0, the start of the MBR sector), not with those at positions 512 and
513 (values 10 and 11). -/
theorem mbr_read_ignores_partition_offset :
    (mbr_find_partition 1 fixture_data "/mbr1".toList).map (fun r => r.1.offset)
      = .returns 512 ∧
    (mbr_read 1 fixture_data "/mbr1".toList (fun _ => 7) 2 0).map
        (fun r => (r.1, r.2 0, r.2 1))
      = .returns (2, fixture_data.fd.byte 0, fixture_data.fd.byte 1) ∧
    (fixture_data.fd.byte 0, fixture_data.fd.byte 1) = (0, 0) ∧
    (fixture_data.fd.byte 512, fixture_data.fd.byte 513) = (10, 11) := by
  decide

/-- C4 (the code departs from the claim): with the backing store opened
read-only, `mbr_open` on `/mbr1` with `O_RDWR` returns 0 instead of `-EROFS`;
only flags with bit 0 set (`O_WRONLY`) are refused. -/
theorem mbr_open_rdwr_on_read_only_store :
    fixture_data.ro = 1 ∧
    mbr_open 1 fixture_data "/mbr1".toList O_RDWR = .returns 0 ∧
    mbr_open 1 fixture_data "/mbr1".toList O_WRONLY = .returns (-EROFS) ∧
    mbr_open 1 fixture_data "/mbr1".toList O_RDONLY = .returns 0 := by
  decide

/-- C5: `mbr_read_mbr` fails fatally, returning no tree, when the MBR sector at
offset 0 lacks the boot signature (byte 510 = 0x55, byte 511 = 0xAA): the
process ends with `exit (2)`, and on an empty file, where there is no sector
to read, with a fault.  It ends with `exit (2)` when any sector it reads, the
MBR or an EBR sector reached in the recursion of `mbr_read_ebr`, lacks the
signature.  Conversely, on an image whose MBR sector has the signature and no
slot of type 0x05 or 0x0F, `mbr_read_mbr` returns a tree: the chain of the
four primary slots. -/
theorem mbr_read_mbr_wrong_magic (fd : Image) (fuel : Nat) :
    (¬ magic_ok fd 0 →
      mbr_read_mbr fd fuel = (if fd.size = 0 then .crashes else .exits 2) ∧
      ∀ t, mbr_read_mbr fd fuel ≠ .returns t) ∧
    (∀ off : Int, off ∈ mbr_read_mbr_reads fd fuel → ¬ magic_ok fd off →
      mbr_read_mbr fd fuel = .exits 2) ∧
    (magic_ok fd 0 →
      (∀ i : Nat, i < 4 → entry_type fd i ≠ 0x05 ∧ entry_type fd i ≠ 0x0f) →
      ∃ t, mbr_read_mbr fd fuel = .returns t ∧ (chain t).length = 4) := by
  refine ⟨?_, ?_, ?_⟩
  · intro hbad
    have hout : mbr_read_mbr fd fuel = (if fd.size = 0 then .crashes else .exits 2) := by
      rw [mbr_read_mbr_unfold]
      by_cases hz : fd.size = 0
      · rw [if_pos hz, if_pos hz]
      · rw [if_neg hz, if_neg hz, if_pos hbad]
    refine ⟨hout, ?_⟩
    intro t ht
    rw [hout] at ht
    split at ht <;> cases ht
  · intro off h hbad
    rw [mbr_read_mbr_reads_unfold] at h
    rw [mbr_read_mbr_unfold]
    by_cases hz : fd.size = 0
    · rw [if_pos hz] at h; simp at h
    · rw [if_neg hz] at h ⊢
      by_cases hgood : magic_ok fd 0
      · rw [if_neg (not_not.mpr hgood)] at h ⊢
        simp only [List.mem_cons, List.mem_append] at h
        rcases h with rfl | h0 | h
        · exact absurd hgood hbad
        · rw [mbr_read_mbr_sub_wrong_magic fd off hbad fuel _ _ h0]; rfl
        · obtain ⟨⟨s0, hs0⟩, h⟩ := mem_reads_after _ _ _ h
          rw [hs0]
          simp only [List.mem_append] at h
          rcases h with h1 | h
          · rw [mbr_read_mbr_sub_wrong_magic fd off hbad fuel _ _ h1]; rfl
          · obtain ⟨⟨s1, hs1⟩, h⟩ := mem_reads_after _ _ _ h
            rw [hs1]
            simp only [List.mem_append] at h
            rcases h with h2 | h
            · rw [mbr_read_mbr_sub_wrong_magic fd off hbad fuel _ _ h2]; rfl
            · obtain ⟨⟨s2, hs2⟩, h3⟩ := mem_reads_after _ _ _ h
              rw [hs2]
              rw [mbr_read_mbr_sub_wrong_magic fd off hbad fuel _ _ h3]; rfl
      · rw [if_pos hgood]
  · intro hgood htypes
    have hsize := magic_ok_inside fd 0 (le_refl _) hgood
    have htype : ∀ i : Nat, i < 4 →
        ¬ ((mbr_table_at fd i).type = 0x05 ∨ (mbr_table_at fd i).type = 0x0f) := by
      intro i hi
      have ht := htypes i hi
      have he : (mbr_table_at fd i).type = entry_type fd i := by
        simp only [mbr_table_at, read_table, sector, entry_type, Int.toNat_zero, Nat.zero_add]
        rw [if_pos (by omega)]
        congr 2
        omega
      rw [he]
      exact fun hc => hc.elim ht.1 ht.2
    rw [mbr_read_mbr_step fd fuel (by omega) hgood]
    simp only [mbr_read_mbr_sub, if_neg (htype 0 (by omega)), if_neg (htype 1 (by omega)),
      if_neg (htype 2 (by omega)), if_neg (htype 3 (by omega)), Outcome.bind_returns]
    exact ⟨_, rfl, rfl⟩

/-- Witness for C5: on the image whose slot 0 is extended and whose EBR sector
at byte 4096 carries no signature, that sector is read and `mbr_read_mbr` ends
with `exit (2)`. -/
theorem mbr_read_mbr_wrong_magic_witness :
    mbr_read_mbr fixture_bad_ebr_image 1 = .exits 2 :=
  (mbr_read_mbr_wrong_magic fixture_bad_ebr_image 1).2.1 4096 (by decide) (by decide)

/-- C6: on a tree with a primary chain (of fewer than `2^63` nodes) and a path
`/mbr i1 . i2 ... . ik` of `k ≥ 1` runs of digits, `mbr_find_partition` returns,
within `k` rounds of its loop and with no suffix, the node the specification
describes (`resolve`: follow `next` `i1` times from the head of the primary
chain, then for each further index descend to `sub` and follow `next`), and
`NULL` exactly when some index is at least the length of its chain level or a
dot follows a node with no `sub`.  In particular, when slot `k` has a nested
chain of exactly two nodes, `/mbr<k>.0` and `/mbr<k>.1` resolve to these two
nodes, which differ, and `/mbr<k>.2` gives `NULL`. -/
theorem mbr_find_partition_dotted_indices (fuel : Nat) (data : mbr_data)
    (hp : data.primary ≠ NULL)
    (hsize : tree_size data.primary < 9223372036854775808) :
    (∀ idxs : List (List Char), idxs ≠ [] → (∀ ds ∈ idxs, is_index ds) →
      idxs.length ≤ fuel →
      mbr_find_partition fuel data (mbr_path (dotted idxs))
          = .returns ((resolve data.primary (idxs.map decval)).getD NULL, none) ∧
        ((resolve data.primary (idxs.map decval)).getD NULL = NULL ↔
          resolve_fails data.primary (idxs.map decval))) ∧
    (∀ (ks : List Char) (n a b : mbr_partition), is_index ks → 2 ≤ fuel →
      (chain data.primary)[decval ks]? = some n → chain n.sub = [a, b] →
      mbr_find_partition fuel data (mbr_path (ks ++ ['.', '0'])) = .returns (a, none) ∧
      mbr_find_partition fuel data (mbr_path (ks ++ ['.', '1'])) = .returns (b, none) ∧
      a ≠ NULL ∧ b ≠ NULL ∧ a ≠ b ∧
      mbr_find_partition fuel data (mbr_path (ks ++ ['.', '2']))
        = .returns (NULL, none)) := by
  have hgen : ∀ idxs : List (List Char), idxs ≠ [] → (∀ ds ∈ idxs, is_index ds) →
      idxs.length ≤ fuel →
      mbr_find_partition fuel data (mbr_path (dotted idxs))
        = .returns ((resolve data.primary (idxs.map decval)).getD NULL, none) := by
    intro idxs hne hall hfuel
    rw [mbr_find_partition_mbr_path]
    exact mbr_find_loop_dotted idxs fuel _ none hne hall hp hsize hfuel
  refine ⟨?_, ?_⟩
  · intro idxs hne hall hfuel
    refine ⟨hgen idxs hne hall hfuel, ?_⟩
    rw [← resolve_none_iff]
    cases hres : resolve data.primary (idxs.map decval) with
    | none => simp
    | some n =>
      have := resolve_some_ne_null _ _ n hres
      simp [this]
  · intro ks n a b hks hfuel hget hsub
    obtain ⟨hsa, ha, hb, hab⟩ := chain_pair n.sub a b hsub
    have hsubne : n.sub ≠ NULL := by rw [hsa]; exact ha
    have hone : ∀ d : Char, isdigit d = true →
        mbr_find_partition fuel data (mbr_path (ks ++ ['.', d]))
          = .returns (((chain n.sub)[decval [d]]?).getD NULL, none) := by
      intro d hd
      have h := hgen [ks, [d]] (by simp)
        (by
          intro ds hmem
          simp only [List.mem_cons, List.mem_singleton, List.not_mem_nil, or_false] at hmem
          rcases hmem with rfl | rfl
          · exact hks
          · exact ⟨by simp, by simpa using hd⟩)
        (by simpa using hfuel)
      have htxt : dotted [ks, [d]] = ks ++ ['.', d] := by simp [dotted]
      rw [htxt] at h
      rw [h]
      simp [resolve, hget, hsubne]
    refine ⟨?_, ?_, ha, hb, hab, ?_⟩
    · rw [hone '0' (by decide), hsub]; rfl
    · rw [hone '1' (by decide), hsub]; rfl
    · rw [hone '2' (by decide), hsub]; rfl

/-- Witness for C6: on the fixture, whose slot 2 is extended with a nested
chain of two logical partitions, `/mbr2.0` and `/mbr2.1` resolve to them and
`/mbr2.2` gives `NULL`. -/
theorem mbr_find_partition_dotted_indices_witness :
    mbr_find_partition 2 fixture_data "/mbr2.0".toList
      = .returns (fixture_logical0, none) ∧
    mbr_find_partition 2 fixture_data "/mbr2.1".toList
      = .returns (fixture_logical1, none) ∧
    fixture_logical0 ≠ NULL ∧ fixture_logical1 ≠ NULL ∧
    fixture_logical0 ≠ fixture_logical1 ∧
    mbr_find_partition 2 fixture_data "/mbr2.2".toList = .returns (NULL, none) :=
  (mbr_find_partition_dotted_indices 2 fixture_data (by decide) (by decide)).2
    ['2'] fixture_slot2 fixture_logical0 fixture_logical1
    (by decide) (by decide) (by decide) (by decide)

/-- Counterexample to C7 as stated: `/mbr+1` is not rejected, it resolves to
the node of slot 1, the one `/mbr1` resolves to. -/
theorem mbr_find_partition_accepts_plus_sign :
    (mbr_find_partition 1 fixture_data "/mbr+1".toList).map
        (fun r => (decide (r.1 = NULL), r.1.offset, r.1.length, r.2))
      = .returns (false, 512, 512, none) ∧
    mbr_find_partition 1 fixture_data "/mbr+1".toList
      = mbr_find_partition 1 fixture_data "/mbr1".toList := by
  decide

/-- C7 (amended): `mbr_find_partition` returns `NULL` for every path that
lacks the literal prefix `/mbr`, and for every path in which, at an index
position (right after `/mbr`, or right after the dot at which `strtoll`
stopped when it read an index at the index position before), `strtoll` reads
a negative value or no digit at all; an index is what `strtoll` reads with a
value that is not negative: white space, a sign and digits.  This is the case
when the text at the index position is empty or begins with a character that
is no digit, no white space and no sign.  In particular `/mbr-1`, `/mbrx` and
`/mbr` give `NULL`. -/
theorem mbr_find_partition_rejects_missing_index (fuel : Nat) (data : mbr_data) :
    (∀ name : List Char, name.take 4 ≠ ['/', 'm', 'b', 'r'] →
      mbr_find_partition fuel data name = .returns (NULL, none)) ∧
    (∀ (k : Nat) (s t : List Char), index_position k s t → index_missing t →
      (k ≠ 0 → data.primary ≠ NULL) → k < fuel →
      mbr_find_partition fuel data (mbr_path s) = .returns (NULL, none)) ∧
    (∀ (idxs : List (List Char)) (t : List Char),
      (∀ ds ∈ idxs, is_index ds) → index_missing t →
      (idxs ≠ [] → data.primary ≠ NULL) → idxs.length < fuel →
      mbr_find_partition fuel data (mbr_path (dotted_before idxs ++ t))
        = .returns (NULL, none)) ∧
    (∀ t : List Char,
      (t = [] ∨ ∃ c t1, t = c :: t1 ∧ isdigit c = false ∧ isspace c = false ∧
        c ≠ '+' ∧ c ≠ '-') → index_missing t) ∧
    (0 < fuel →
      mbr_find_partition fuel data "/mbr-1".toList = .returns (NULL, none) ∧
      mbr_find_partition fuel data "/mbrx".toList = .returns (NULL, none) ∧
      mbr_find_partition fuel data "/mbr".toList = .returns (NULL, none)) := by
  have hpos : ∀ (k : Nat) (s t : List Char), index_position k s t → index_missing t →
      (k ≠ 0 → data.primary ≠ NULL) → k < fuel →
      mbr_find_partition fuel data (mbr_path s) = .returns (NULL, none) := by
    intro k s t hp ht hprim hfuel
    rw [mbr_find_partition_mbr_path]
    exact mbr_find_loop_index_position k fuel _ s t none hp ht hprim hfuel
  have hgen : ∀ (idxs : List (List Char)) (t : List Char),
      (∀ ds ∈ idxs, is_index ds) → index_missing t →
      (idxs ≠ [] → data.primary ≠ NULL) → idxs.length < fuel →
      mbr_find_partition fuel data (mbr_path (dotted_before idxs ++ t))
        = .returns (NULL, none) := by
    intro idxs t hall ht hp hfuel
    rw [mbr_find_partition_mbr_path]
    exact mbr_find_loop_index_missing t ht idxs fuel _ none hall hp hfuel
  refine ⟨?_, hpos, hgen, index_missing_of_first, ?_⟩
  · intro name hname
    simp [mbr_find_partition, hname]
  · intro hfuel
    refine ⟨?_, ?_, ?_⟩
    · exact hpos 0 ['-', '1'] ['-', '1'] rfl (by decide) (by simp) hfuel
    · exact hpos 0 ['x'] ['x'] rfl (by decide) (by simp) hfuel
    · exact hpos 0 [] [] rfl (by decide) (by simp) hfuel

/-- Witness for C7 (amended): on the fixture `/mbr+2.x`, whose first index is
read with its sign and whose text after the dot holds no index, gives
`NULL`. -/
theorem mbr_find_partition_rejects_missing_index_witness :
    mbr_find_partition 2 fixture_data "/mbr+2.x".toList = .returns (NULL, none) :=
  (mbr_find_partition_rejects_missing_index 2 fixture_data).2.1 1 "+2.x".toList ['x']
    ⟨by decide, ['x'], by decide, rfl⟩ (by decide) (by decide) (by decide)

/-- C8 (the code departs from the claim): on a path `/mbr0/s`, whose index 0
is followed by a suffix, none of `mbr_getattr`, `mbr_open` and `mbr_read`
returns, whatever the tree, the suffix and the fuel: the loop of
`mbr_find_partition` stores the suffix and repeats without end. -/
theorem handlers_hang_on_suffix_after_index_zero (fuel : Nat) (data : mbr_data)
    (s : List Char) (flags : Nat) (buf : Nat → Nat) (size : Nat) (offset : Int) :
    mbr_getattr fuel data ("/mbr0/".toList ++ s) = .loops ∧
    mbr_open fuel data ("/mbr0/".toList ++ s) flags = .loops ∧
    mbr_read fuel data ("/mbr0/".toList ++ s) buf size offset = .loops := by
  have hpath : "/mbr0/".toList ++ s = '/' :: 'm' :: 'b' :: 'r' :: '0' :: '/' :: s := rfl
  rw [hpath]
  have hfind : mbr_find_partition fuel data ('/' :: 'm' :: 'b' :: 'r' :: '0' :: '/' :: s)
      = .loops := by
    simp only [mbr_find_partition, List.take, List.drop, ne_eq, not_true_eq_false,
      if_false]
    exact mbr_find_loop_slash_zero _ s (strtoll_zero_slash s) (by simp) fuel _ _
  refine ⟨?_, ?_, ?_⟩
  · simp [mbr_getattr, hfind]
  · simp [mbr_open, hfind]
  · simp [mbr_read, hfind]

/-- C9: `mbr_getattr` reports the root path as a directory for every tree;
for any other path it returns `-ENOENT` when `mbr_find_partition` returns
`NULL`, and when the path resolves to a node `n` with no suffix it reports a
regular file of size `n.length`, for every such node, whatever its `sub`
pointer and its type byte (on the trees of the program, in which no `mounted`
flag is set). -/
theorem mbr_getattr_root_and_partition (fuel : Nat) (data : mbr_data) :
    (mbr_getattr fuel data ['/'] = .returns (0, ⟨S_IFDIR ||| 0o555, 2, 0⟩) ∧
      (S_IFDIR ||| 0o555) &&& S_IFMT = S_IFDIR) ∧
    (∀ (path : List Char) (rest : Option (List Char)), path ≠ ['/'] →
      mbr_find_partition fuel data path = .returns (NULL, rest) →
      mbr_getattr fuel data path = .returns (-ENOENT, ⟨0, 0, 0⟩)) ∧
    (∀ (path : List Char) (n : mbr_partition), unmounted data.primary = true →
      path ≠ ['/'] → n ≠ NULL →
      mbr_find_partition fuel data path = .returns (n, none) →
      mbr_getattr fuel data path = .returns (0, ⟨S_IFREG ||| 0o644, 1, n.length⟩) ∧
        (S_IFREG ||| 0o644) &&& S_IFMT = S_IFREG) := by
  refine ⟨⟨by simp [mbr_getattr], by decide⟩, ?_, ?_⟩
  · intro path rest hroot hfind
    simp [mbr_getattr, hroot, hfind]
  · intro path n hu hroot hn hfind
    have hm := mbr_find_partition_unmounted fuel data path n none hu hfind
    refine ⟨?_, by decide⟩
    simp [mbr_getattr, hroot, hfind, hn, hm]

/-- Witness for C9: on the fixture, `/mbr2` resolves to the extended slot,
which has a `sub` chain, and is reported as a regular file of 4096 bytes. -/
theorem mbr_getattr_root_and_partition_witness :
    mbr_getattr 1 fixture_data "/mbr2".toList
        = .returns (0, ⟨S_IFREG ||| 0o644, 1, 4096⟩) ∧
      (S_IFREG ||| 0o644) &&& S_IFMT = S_IFREG :=
  (mbr_getattr_root_and_partition 1 fixture_data).2.2 "/mbr2".toList
    fixture_slot2 (by decide) (by decide) (by decide) (by decide)

/-- C10: for every tree, the names `mbr_readdir_rec` produces (from position 0,
as in the listing of the root with prefix `mbr`) are the depth-first sequence
of the specification, `listing`: nested chain first under the dotted prefix,
then the node's own name; a plain name for a node with no `sub` and a type
other than 0x00; nothing for a node with no `sub` and type 0x00.  On the
fixture (slots: empty, plain 0x83, extended with two nested leaves, empty)
the names are `mbr1`, `mbr2.0`, `mbr2.1`, `mbr2.` in that order. -/
theorem mbr_readdir_rec_depth_first :
    (∀ (part : mbr_partition) (pfx : List Char),
      mbr_readdir_rec pfx part 0 = listing pfx part) ∧
    (∀ data : mbr_data,
      mbr_readdir data ['/']
        = (0, [['.'], ['.', '.']] ++ listing ['m', 'b', 'r'] data.primary)) ∧
    (chain fixture_tree).map (fun n => (n.table.type, decide (n.sub = NULL)))
      = [(0x00, true), (0x83, true), (0x05, false), (0x00, true)] ∧
    (chain fixture_slot2.sub).map (fun n => (n.table.type, decide (n.sub = NULL)))
      = [(0x83, true), (0x83, true)] ∧
    mbr_readdir_rec "mbr".toList fixture_tree 0
      = ["mbr1".toList, "mbr2.0".toList, "mbr2.1".toList, "mbr2.".toList] := by
  have hgen : ∀ (part : mbr_partition) (pfx : List Char),
      mbr_readdir_rec pfx part 0 = listing pfx part :=
    fun part pfx => (listing_eq_mbr_readdir_rec (tree_size part) part pfx (le_refl _)).symm
  refine ⟨hgen, ?_, by decide, by decide, by decide⟩
  intro data
  simp [mbr_readdir, hgen]

/-- C11 (the code departs from the claim): the name `mbr_readdir_rec` emits for
a node with a `sub` ends in a dot and is no path of the grammar: resolving
`/` followed by that name gives `NULL`, for every tree, so `mbr_getattr`
fails on it.  On the fixture the listing holds `mbr2.` for the extended
slot 2, and `/mbr2.` gives `NULL` and `-ENOENT` while `/mbr2` resolves to the
slot.  The names emitted for nodes with no `sub` do resolve to their
node. -/
theorem mbr_readdir_rec_extended_name_unresolved :
    ((mbr_readdir fixture_data ['/']).2
        = [".".toList, "..".toList, "mbr1".toList, "mbr2.0".toList, "mbr2.1".toList,
            "mbr2.".toList] ∧
      node_name "mbr".toList [2] fixture_slot2 = "mbr2.".toList ∧
      mbr_find_partition 2 fixture_data "/mbr2.".toList = .returns (NULL, none) ∧
      mbr_getattr 2 fixture_data "/mbr2.".toList = .returns (-ENOENT, ⟨0, 0, 0⟩) ∧
      mbr_find_partition 2 fixture_data "/mbr2".toList = .returns (fixture_slot2, none)) ∧
    (∀ (data : mbr_data) (fuel : Nat) (p : List Nat) (n : mbr_partition),
      data.primary ≠ NULL → resolve data.primary p = some n → n.sub ≠ NULL →
      p.length < fuel →
      node_name ['m', 'b', 'r'] p n ∈ (mbr_readdir data ['/']).2 ∧
      mbr_find_partition fuel data ('/' :: node_name ['m', 'b', 'r'] p n)
        = .returns (NULL, none)) ∧
    (∀ (data : mbr_data) (fuel : Nat) (p : List Nat) (n : mbr_partition),
      data.primary ≠ NULL → tree_size data.primary < 9223372036854775808 →
      resolve data.primary p = some n → n.sub = NULL → n.table.type ≠ 0x00 →
      p.length ≤ fuel →
      node_name ['m', 'b', 'r'] p n ∈ (mbr_readdir data ['/']).2 ∧
      mbr_find_partition fuel data ('/' :: node_name ['m', 'b', 'r'] p n)
        = .returns (n, none)) := by
  have hlist : ∀ (data : mbr_data) (p : List Nat) (n : mbr_partition),
      resolve data.primary p = some n → is_named n = true →
      node_name ['m', 'b', 'r'] p n ∈ (mbr_readdir data ['/']).2 := by
    intro data p n hres hn
    simp only [mbr_readdir, if_true, List.cons_append, List.nil_append, List.mem_cons]
    exact Or.inr (Or.inr (node_name_mem p data.primary _ n hres hn))
  refine ⟨by decide, ?_, ?_⟩
  · intro data fuel p n hp hres hsub hfuel
    refine ⟨hlist data p n hres (by simp [is_named, hsub]), ?_⟩
    have hpne : p ≠ [] := by
      rintro rfl; simp [resolve] at hres
    have hidx := (map_repr_index p).1
    have hname : '/' :: node_name ['m', 'b', 'r'] p n
        = mbr_path (dotted_before (p.map fun i => (Nat.repr i).toList) ++ []) := by
      simp only [node_name, hsub, ne_eq, not_false_eq_true, if_true, mbr_path,
        List.append_nil, List.cons_append, List.nil_append, List.append_assoc]
      rw [dotted_append_dot _ (by simpa using hpne)]
    rw [hname, mbr_find_partition_mbr_path]
    exact mbr_find_loop_index_missing [] (by decide) _ fuel _ none hidx (fun _ => hp)
      (by simpa using hfuel)
  · intro data fuel p n hp hsize hres hsub htype hfuel
    refine ⟨hlist data p n hres (by simp [is_named, htype]), ?_⟩
    have hpne : p ≠ [] := by
      rintro rfl; simp [resolve] at hres
    obtain ⟨hidx, hval⟩ := map_repr_index p
    have hname : '/' :: node_name ['m', 'b', 'r'] p n
        = mbr_path (dotted (p.map fun i => (Nat.repr i).toList)) := by
      simp [node_name, hsub, mbr_path]
    rw [hname, mbr_find_partition_mbr_path,
      mbr_find_loop_dotted _ fuel _ none (by simpa using hpne) hidx hp hsize
        (by simpa using hfuel),
      hval, hres]
    rfl

/-- Witness for C11: on the fixture the name of the extended slot 2 is in the
root listing and does not resolve. -/
theorem mbr_readdir_rec_extended_name_unresolved_witness :
    node_name ['m', 'b', 'r'] [2] fixture_slot2 ∈ (mbr_readdir fixture_data ['/']).2 ∧
    mbr_find_partition 2 fixture_data ('/' :: node_name ['m', 'b', 'r'] [2] fixture_slot2)
      = .returns (NULL, none) :=
  mbr_readdir_rec_extended_name_unresolved.2.1 fixture_data 2 [2] fixture_slot2
    (by decide) (by decide) (by decide) (by decide)

/-- C12: on every image for which `mbr_read_mbr` returns a tree, the primary
chain has exactly 4 nodes, linked by `next` in the order of the table and
built whatever the type bytes are; the nodes are pairwise distinct;
`/mbr0` .. `/mbr3` resolve to them, and `/mbr<i>` gives `NULL` for every
`i ≥ 4`. -/
theorem mbr_read_mbr_four_primary_slots (fd : Image) (fuel ro : Nat) (t : mbr_partition)
    (h : mbr_read_mbr fd fuel = .returns t) :
    (chain t).length = 4 ∧
    (chain t).map mbr_partition.table
      = [mbr_table_at fd 0, mbr_table_at fd 1, mbr_table_at fd 2, mbr_table_at fd 3] ∧
    (chain t).Nodup ∧
    (∀ i k : Nat, i < 4 → 0 < k →
      ∃ n, n ≠ NULL ∧ (chain t)[i]? = some n ∧
        mbr_find_partition k ⟨fd, ro, t⟩ (mbr_path (Nat.repr i).toList)
          = .returns (n, none)) ∧
    (∀ i k : Nat, 4 ≤ i → 0 < k →
      mbr_find_partition k ⟨fd, ro, t⟩ (mbr_path (Nat.repr i).toList)
        = .returns (NULL, none)) := by
  obtain ⟨s0, s1, s2, s3, _, _, _, _, _, _, ht⟩ := mbr_read_mbr_returns fd fuel t h
  have hlen : (chain t).length = 4 := by rw [ht]; rfl
  have hne : t ≠ NULL := by rw [ht]; simp
  have hfind : ∀ i k : Nat, 0 < k →
      mbr_find_partition k ⟨fd, ro, t⟩ (mbr_path (Nat.repr i).toList)
        = .returns (((chain t)[i]?).getD NULL, none) := by
    intro i k hk
    obtain ⟨k1, rfl⟩ : ∃ k1, k = k1 + 1 := ⟨k - 1, by omega⟩
    exact mbr_find_partition_position k1 ⟨fd, ro, t⟩ i hne (by simp only [hlen]; omega)
  refine ⟨hlen, by rw [ht]; rfl, chain_nodup t, ?_, ?_⟩
  · intro i k hi hk
    have hsome : ∃ n, (chain t)[i]? = some n := by
      rw [List.getElem?_eq_getElem (by omega)]
      exact ⟨_, rfl⟩
    obtain ⟨n, hn⟩ := hsome
    refine ⟨n, (chain_getElem t i n hn).1, hn, ?_⟩
    rw [hfind i k hk, hn]; rfl
  · intro i k hi hk
    rw [hfind i k hk, List.getElem?_eq_none (by omega)]; rfl

/-- Witness for C12: on the fixture image `/mbr3`, the empty last slot,
resolves to a node, and `/mbr4` gives `NULL`. -/
theorem mbr_read_mbr_four_primary_slots_witness :
    (∃ n, n ≠ NULL ∧ (chain fixture_tree)[3]? = some n ∧
      mbr_find_partition 1 ⟨fixture_image, 1, fixture_tree⟩ (mbr_path (Nat.repr 3).toList)
        = .returns (n, none)) ∧
    mbr_find_partition 1 ⟨fixture_image, 1, fixture_tree⟩ (mbr_path (Nat.repr 4).toList)
      = .returns (NULL, none) :=
  ⟨(mbr_read_mbr_four_primary_slots fixture_image 2 1 fixture_tree (by decide)).2.2.2.1
      3 1 (by decide) (by decide),
    (mbr_read_mbr_four_primary_slots fixture_image 2 1 fixture_tree (by decide)).2.2.2.2
      4 1 (by decide) (by decide)⟩

/-- C13: in every tree `mbr_read_mbr` returns, every node at every nesting
level (a primary slot or a logical partition read from an EBR) has a `sub`
pointer if and only if the type byte of its entry is 0x05 or 0x0F; so has
every node `mbr_find_partition` returns from that tree. -/
theorem mbr_read_mbr_sub_iff_extended (fd : Image) (fuel : Nat) (t : mbr_partition)
    (h : mbr_read_mbr fd fuel = .returns t) :
    (∀ n ∈ nodes t, (n.sub ≠ NULL ↔ (n.table.type = 0x05 ∨ n.table.type = 0x0f))) ∧
    (∀ (k ro : Nat) (path : List Char) (n : mbr_partition) (rest : Option (List Char)),
      mbr_find_partition k ⟨fd, ro, t⟩ path = .returns (n, rest) → n ≠ NULL →
      (n.sub ≠ NULL ↔ (n.table.type = 0x05 ∨ n.table.type = 0x0f))) := by
  obtain ⟨s0, s1, s2, s3, _, _, h0, h1, h2, h3, ht⟩ := mbr_read_mbr_returns fd fuel t h
  obtain ⟨a0, b0⟩ := mbr_read_mbr_sub_nodes fd fuel _ _ s0 h0
  obtain ⟨a1, b1⟩ := mbr_read_mbr_sub_nodes fd fuel _ _ s1 h1
  obtain ⟨a2, b2⟩ := mbr_read_mbr_sub_nodes fd fuel _ _ s2 h2
  obtain ⟨a3, b3⟩ := mbr_read_mbr_sub_nodes fd fuel _ _ s3 h3
  have hall : ∀ n ∈ nodes t, (n.sub ≠ NULL ↔ (n.table.type = 0x05 ∨ n.table.type = 0x0f)) := by
    intro n hn
    rw [ht] at hn
    simp only [nodes, List.mem_cons, List.mem_append, List.not_mem_nil, or_false] at hn
    rcases hn with rfl | hn | rfl | hn | rfl | hn | rfl | hn
    · exact a0
    · exact b0 n hn
    · exact a1
    · exact b1 n hn
    · exact a2
    · exact b2 n hn
    · exact a3
    · exact b3 n hn
  refine ⟨hall, ?_⟩
  intro k ro path n rest hfind hn
  have hne : t ≠ NULL := by rw [ht]; simp
  unfold mbr_find_partition at hfind
  split at hfind
  · simp only [Outcome.returns.injEq, Prod.mk.injEq] at hfind
    exact absurd hfind.1.symm hn
  · rcases mbr_find_loop_mem_nodes k t _ _ (n, rest) hne hfind with h1 | h1
    · exact absurd h1 hn
    · exact hall n h1

/-- Witness for C13: on the fixture image the node of `/mbr2` (type 0x05) has
a `sub` pointer. -/
theorem mbr_read_mbr_sub_iff_extended_witness :
    fixture_slot2.sub ≠ NULL ↔
      (fixture_slot2.table.type = 0x05 ∨ fixture_slot2.table.type = 0x0f) :=
  (mbr_read_mbr_sub_iff_extended fixture_image 2 fixture_tree (by decide)).2
    1 1 "/mbr2".toList fixture_slot2 none (by decide) (by decide)

/-- C14: for an EBR sector the program can read at byte offset `E` (a multiple
of the page size, so that `mmap` accepts it, inside the image) that carries
the boot signature, the node `mbr_read_ebr` builds from it has offset
`E + start_sector * 512` and length `length_sectors * 512`, where the two
fields are the little-endian 32-bit values at bytes 8..11 and 12..15 of the
entry at 0x1BE.  The fields are below `2^32` and the products are computed in
`off_t`, where they are exact (as is the sum on an image of at most `2^62`
bytes).  The call returns that node as soon as its two
nested calls return, at once when the entry is not extended and the link
field is 0. -/
theorem mbr_read_ebr_offset_and_length (fd : Image) (E : Int) (hr : ebr_readable fd E) :
    ((ebr_table fd E).offset = le32 (sector fd E) (0x1BE + 8) ∧
      (ebr_table fd E).length = le32 (sector fd E) (0x1BE + 12)) ∧
    ((ebr_table fd E).offset < 4294967296 ∧ (ebr_table fd E).length < 4294967296 ∧
      to_off_t (((ebr_table fd E).offset : Int) * 512) = ((ebr_table fd E).offset : Int) * 512 ∧
      to_off_t (((ebr_table fd E).length : Int) * 512)
        = ((ebr_table fd E).length : Int) * 512 ∧
      (fd.size ≤ 4611686018427387904 →
        to_off_t (E + ((ebr_table fd E).offset : Int) * 512)
          = E + ((ebr_table fd E).offset : Int) * 512)) ∧
    (∀ (fuel : Nat) (n : mbr_partition), mbr_read_ebr fd fuel E = .returns n →
      n.table = ebr_table fd E ∧
      n.offset = E + ((ebr_table fd E).offset : Int) * 512 ∧
      n.length = ((ebr_table fd E).length : Int) * 512) ∧
    (∀ fuel : Nat,
      mbr_read_ebr fd (fuel + 1) E =
        (if is_extended (ebr_table fd E).type then
            mbr_read_ebr fd fuel (E + ((ebr_table fd E).offset : Int) * 512)
          else .returns NULL).bind fun sub =>
        (if ebr_link fd E ≠ 0 then mbr_read_ebr fd fuel (E + (ebr_link fd E : Int))
          else .returns NULL).bind fun next =>
        .returns (node (ebr_table fd E) (E + ((ebr_table fd E).offset : Int) * 512)
          (((ebr_table fd E).length : Int) * 512) next sub false)) ∧
    (¬ is_extended (ebr_table fd E).type → ebr_link fd E = 0 → ∀ fuel : Nat,
      mbr_read_ebr fd (fuel + 1) E =
        .returns (node (ebr_table fd E) (E + ((ebr_table fd E).offset : Int) * 512)
          (((ebr_table fd E).length : Int) * 512) NULL NULL false)) := by
  have ho : (ebr_table fd E).offset < 4294967296 := le32_lt _ _ (sector_lt fd E)
  have hl : (ebr_table fd E).length < 4294967296 := le32_lt _ _ (sector_lt fd E)
  have h0 := hr.1
  have hin := hr.2.2.1
  refine ⟨⟨rfl, rfl⟩, ⟨ho, hl, ?_, ?_, ?_⟩, ?_, ?_, ?_⟩
  · exact to_off_t_of_bounds _ (by omega) (by omega)
  · exact to_off_t_of_bounds _ (by omega) (by omega)
  · intro hsz
    exact to_off_t_of_bounds _ (by omega) (by omega)
  · intro fuel n h
    obtain ⟨f, sub, next, _, _, _, _, ht⟩ := mbr_read_ebr_returns fd fuel E n h
    rw [ht]
    exact ⟨rfl, rfl, rfl⟩
  · intro fuel
    exact mbr_read_ebr_step fd fuel E hr
  · intro hext hlink fuel
    rw [mbr_read_ebr_step fd fuel E hr, if_neg hext, if_neg (by simpa using hlink)]
    rfl

/-- Witness for C14: the second EBR of the fixture image, at byte 8192 (the
start of the third page), has start sector 1 and length 1 sector; its node has
offset 8192 + 512 and length 512. -/
theorem mbr_read_ebr_offset_and_length_witness :
    mbr_read_ebr fixture_image (0 + 1) 8192 =
      .returns (node (ebr_table fixture_image 8192)
        (8192 + ((ebr_table fixture_image 8192).offset : Int) * 512)
        (((ebr_table fixture_image 8192).length : Int) * 512) NULL NULL false) :=
  (mbr_read_ebr_offset_and_length fixture_image 8192 (by decide)).2.2.2.2
    (by decide) (by decide) 0

/-- C15 (the code departs from the claim): `mbr_read_ebr` looks for the next EBR
at the offset of the current sector plus the link field taken as bytes.  On
an image laid out as the format prescribes, with the extended partition at
byte `X = 4096`, a first EBR whose link field is 8 and the second EBR at
`X + 8 * 512 = 8192`, it maps the file at 4096 + 8 = 4104, which `mmap`
refuses, and faults on the sector it did not get; the sector at 8192 is never
read.  On an image whose link field is 4096, a multiple of the page size, the
`next` node is the one parsed from the EBR at 4096 + 4096 = 8192 (type 0x83),
not the one at `X + 4096 * 512` (type 0x0B).  A link of 0 ends the chain. -/
theorem mbr_read_ebr_link_taken_as_bytes :
    (ebr_readable fixture_standard_image 4096 ∧ ebr_readable fixture_standard_image 8192 ∧
      is_extended (mbr_table_at fixture_standard_image 0).type ∧
      mbr_slot_bytes fixture_standard_image 0 = 4096 ∧
      ebr_link fixture_standard_image 4096 = 8 ∧
      ebr_link fixture_standard_image 8192 = 0) ∧
    (mbr_read_ebr fixture_standard_image 1 (4096 + 8 * 512)).map
        (fun n => (decide (n = NULL), n.offset, n.length, n.next))
      = .returns (false, 8704, 512, NULL) ∧
    (mmap fixture_standard_image 512 (4096 + 8)).isNone = true ∧
    mbr_read_mbr_reads fixture_standard_image 3 = [0, 4096] ∧
    (∀ fuel : Nat, mbr_read_ebr fixture_standard_image (fuel + 2) 4096 = .crashes) ∧
    (∀ fuel : Nat, mbr_read_mbr fixture_standard_image (fuel + 2) = .crashes) ∧
    (ebr_readable fixture_link_image 4096 ∧ ebr_readable fixture_link_image 8192 ∧
      ebr_readable fixture_link_image (4096 + 4096 * 512) ∧
      mbr_slot_bytes fixture_link_image 0 = 4096 ∧
      ebr_link fixture_link_image 4096 = 4096) ∧
    mbr_read_mbr_reads fixture_link_image 3 = [0, 4096, 4096 + 4096] ∧
    (mbr_read_mbr fixture_link_image 3).map
        (fun t => (t.sub.table.type, t.sub.next.table.type, t.sub.next.offset,
          t.sub.next.next))
      = .returns (0x83, 0x83, 8192 + 512, NULL) ∧
    (mbr_read_ebr fixture_link_image 1 (4096 + 4096 * 512)).map
        (fun n => (n.table.type, n.offset))
      = .returns (0x0B, 4096 + 4096 * 512 + 2 * 512) := by
  have h4104 : ∀ fuel : Nat,
      mbr_read_ebr fixture_standard_image (fuel + 1) 4104 = .crashes := by
    intro fuel
    rw [mbr_read_ebr_unfold, if_pos (by decide)]
  have h4096 : ∀ fuel : Nat,
      mbr_read_ebr fixture_standard_image (fuel + 2) 4096 = .crashes := by
    intro fuel
    rw [mbr_read_ebr_step _ (fuel + 1) 4096 (by decide), if_neg (by decide),
      if_pos (by decide)]
    have hl : (4096 : Int) + (ebr_link fixture_standard_image 4096 : Int) = 4104 := by
      decide
    rw [hl, h4104 fuel]
    rfl
  refine ⟨by decide, by decide, by decide, by decide, h4096, ?_, by decide, by decide,
    by decide, by decide⟩
  intro fuel
  have hsub : mbr_read_mbr_sub fixture_standard_image (fuel + 2)
      (mbr_table_at fixture_standard_image 0) (mbr_slot_bytes fixture_standard_image 0)
      = .crashes := by
    have hext : (mbr_table_at fixture_standard_image 0).type = 0x05 ∨
        (mbr_table_at fixture_standard_image 0).type = 0x0f := by decide
    have ho : mbr_slot_bytes fixture_standard_image 0 = 4096 := by decide
    rw [mbr_read_mbr_sub, if_pos hext, ho]
    exact h4096 fuel
  rw [mbr_read_mbr_step _ _ (by decide) (by decide), hsub]
  rfl

/-- C16 (the code departs from the claim): `mbr_find_partition` never returns
a node together with a suffix: whenever it returns with `*rest` set, the
pointer is `NULL`.  On the fixture `/mbr1` resolves to slot 1, yet `/mbr1/x`
gives `NULL` (after walking on from slot 1 in every round until the chain
ends), and `/mbr0/x` does not return at all. -/
theorem mbr_find_partition_never_returns_suffix :
    (∀ (fuel : Nat) (data : mbr_data) (path : List Char) (n : mbr_partition)
      (s : List Char),
      mbr_find_partition fuel data path = .returns (n, some s) → n = NULL) ∧
    mbr_find_partition 1 fixture_data "/mbr1".toList = .returns (fixture_slot1, none) ∧
    mbr_find_partition 4 fixture_data "/mbr1/x".toList = .returns (NULL, some ['x']) ∧
    (∀ fuel : Nat, mbr_find_partition fuel fixture_data "/mbr0/x".toList = .loops) := by
  refine ⟨?_, by decide, by decide, ?_⟩
  · intro fuel data path n s h
    unfold mbr_find_partition at h
    split at h
    · simp only [Outcome.returns.injEq, Prod.mk.injEq] at h
      exact h.1.symm
    · exact mbr_find_loop_suffix_null fuel _ _ none (n, some s) (fun hne => absurd rfl hne) h
        (by simp)
  · intro fuel
    have hpath : "/mbr0/x".toList = mbr_path ('0' :: '/' :: ['x']) := rfl
    rw [hpath, mbr_find_partition_mbr_path]
    exact mbr_find_loop_slash_zero _ ['x'] (strtoll_zero_slash ['x']) (by simp) fuel _ _

/-- C17 (the code departs from the claim): `mbr_find_partition` is not total.
On a path `/mbr0/s` it does not return for any fuel, whatever the tree and
the suffix; and on `/mbr1/x`, a path with one index, it needs four rounds of
its loop on the fixture, not one. -/
theorem mbr_find_partition_not_total :
    (∀ (fuel : Nat) (data : mbr_data) (s : List Char),
      mbr_find_partition fuel data (mbr_path ('0' :: '/' :: s)) = .loops) ∧
    mbr_find_partition 1 fixture_data (mbr_path ['1']) = .returns (fixture_slot1, none) ∧
    mbr_find_partition 3 fixture_data (mbr_path ('1' :: '/' :: ['x'])) = .loops ∧
    mbr_find_partition 4 fixture_data (mbr_path ('1' :: '/' :: ['x']))
      = .returns (NULL, some ['x']) := by
  refine ⟨?_, by decide, by decide, by decide⟩
  intro fuel data s
  rw [mbr_find_partition_mbr_path]
  exact mbr_find_loop_slash_zero _ s (strtoll_zero_slash s) (by simp) fuel _ _

/-- C20: for every tree and prefix, the names `mbr_readdir_rec` hands to
`filler` in one listing are pairwise distinct; their number is the number of
nodes that have a `sub` or a type byte other than 0x00; every node of the
tree is reached by a list of positions, and each node with a `sub` or a
non-zero type byte, at any nesting depth, has its name in the listing
exactly once.  The root listing, with `.` and `..` in front, has no name
twice either. -/
theorem mbr_readdir_rec_names_once (part : mbr_partition) (pfx : List Char) :
    (mbr_readdir_rec pfx part 0).Nodup ∧
    (mbr_readdir_rec pfx part 0).length = named_count part ∧
    (∀ n ∈ nodes part, ∃ p, resolve part p = some n) ∧
    (∀ (p : List Nat) (n : mbr_partition), resolve part p = some n →
      (n.sub ≠ NULL ∨ n.table.type ≠ 0x00) →
      (mbr_readdir_rec pfx part 0).countP (fun s => decide (s = node_name pfx p n)) = 1) ∧
    (∀ data : mbr_data, data.primary = part → (mbr_readdir data ['/']).2.Nodup) := by
  refine ⟨mbr_readdir_rec_nodup part pfx 0, mbr_readdir_rec_length part pfx 0,
    nodes_resolve part, ?_, ?_⟩
  · intro p n hres hn
    apply countP_eq_one_of_nodup _ _ (mbr_readdir_rec_nodup part pfx 0)
    exact node_name_mem p part pfx n hres (by simpa [is_named] using hn)
  · intro data hdata
    have hnot : ∀ name ∈ mbr_readdir_rec ['m', 'b', 'r'] data.primary 0,
        name ≠ ['.'] ∧ name ≠ ['.', '.'] := by
      intro name hname
      obtain ⟨i, _, t1, h1, _⟩ := mbr_readdir_rec_name_at _ _ 0 name hname
      rw [h1]
      constructor <;> simp
    simp only [mbr_readdir, if_true, List.cons_append, List.nil_append, List.nodup_cons,
      List.mem_cons]
    refine ⟨?_, ?_, mbr_readdir_rec_nodup _ _ 0⟩
    · rintro (h | h)
      · exact absurd h (by decide)
      · exact (hnot _ h).1 rfl
    · intro h
      exact (hnot _ h).2 rfl

/-- Witness for C20: on the fixture the extended slot 2 is named `mbr2.`
exactly once. -/
theorem mbr_readdir_rec_names_once_witness :
    (mbr_readdir_rec ['m', 'b', 'r'] fixture_tree 0).countP
      (fun s => decide (s = node_name ['m', 'b', 'r'] [2] fixture_slot2)) = 1 :=
  (mbr_readdir_rec_names_once fixture_tree ['m', 'b', 'r']).2.2.2.1 [2] fixture_slot2
    (by decide) (by decide)

end Mbrfs
